import Mathlib

/-!
# Verification of the diff-edit core

A shallow embedding, in Lean 4, of the core of the `diff-edit` repository
(`diff_edit/__init__.py` and `diff_edit/editor.py`), together with proofs and
refutations of the specification claims about it.

The embedding covers:

* the line-level / character-level diff algorithm.  The repository computes its
  opcodes by calling `difflib.SequenceMatcher(a=..., b=...).get_opcodes()` from
  the Python standard library (with `isjunk=None` and the default
  `autojunk=True`); the functions `b2j`, `findLongestMatch`,
  `matchingBlocksRec`, `mergeAdjacent`, `getMatchingBlocks`, `opcodesLoop` and
  `getOpcodes` below are a faithful functional rendering of that stdlib code
  (CPython's `difflib.py`), since the repository's behaviour is decided by it;
* `DiffEditor._equivalent_line`, `DiffEditor.on_divider_pressed`,
  `DiffEditor.on_keyboard_input` and the `diff` / `diff_changed` cache;
* `highlight_modification` (sub-line highlighting of `replace` hunks);
* the `TextEditor` state: buffer lines with a version counter, cursor,
  mark, history (`add_to_history`, `undo`), cursor motion (`cursor_up`,
  `cursor_down`, `cursor_right`, `next_word`), `insert_text`, and the
  `on_keyboard_input` edit/IndexError/history protocol;
* the coordinate mapping `expand_str` / `expand_str_inverse` / `screen_x`.

Modelling conventions:

* Python lists become `List`; machine integers are `Nat`/`Int` (Python ints are
  unbounded, so no wrap-around modelling is needed); a Python index expression
  that is non-negative on every reachable input is rendered with the
  equivalent truncated `Nat` expression and noted where it occurs.
* Python `while` loops are rendered as structural recursion on an explicit
  fuel bound chosen at the call site to exceed the loop's iteration count, so
  that every definition is executable by `decide`/`rfl`.
* An operation that can raise `IndexError` returns the state it had reached
  when the exception escaped, paired with a `Bool` that is `true` when it
  raised (Python exceptions do not roll back earlier mutations).
* Floating point: `_equivalent_line` computes `fraction` with Python float
  division and rounds with Python's `round` (round-half-to-even).  The
  arithmetic is modelled exactly over `ℚ` with a round-half-to-even function
  `roundHalfEven`; for the line counts involved the float computation agrees
  with the exact one except within half an ulp of a tie, and every property
  proved below is stable under that perturbation.
-/

set_option linter.unusedSectionVars false

namespace DiffEdit

/-! ## The diff engine: difflib.SequenceMatcher

`DiffEditor.diff` is `difflib.SequenceMatcher(a=left_lines, b=right_lines)
.get_opcodes()`, and `line_diff` is the same on two strings.  Everything in
this section is generic in the element type `α` (lines in the first use,
characters in the second). -/

variable {α : Type} [DecidableEq α]

/-- The occurrence lists built by `SequenceMatcher.__chain_b`:
`b2j[x]` is the ascending list of indices `j` with `b[j] == x`. -/
def occIndices (b : List α) (x : α) : List Nat :=
  (List.range b.length).filter (fun j => decide (b.get? j = some x))

/-- `SequenceMatcher.__chain_b` with `isjunk=None` (so the junk set `bjunk` is
empty) and the default `autojunk=True`: when `len(b) >= 200`, an element
occurring more than `len(b) // 100 + 1` times is "popular" and is removed from
`b2j`. -/
def b2j (b : List α) (x : α) : List Nat :=
  let js := occIndices b x
  if 200 ≤ b.length ∧ b.length / 100 + 1 < js.length then [] else js

/-- The running best match `(besti, bestj, bestsize)` of
`find_longest_match`. -/
structure FlmBest where
  besti : Nat
  bestj : Nat
  bestsize : Nat
deriving DecidableEq

/-- Element comparison `a[i] == b[j]`, as a `Bool` that is `false` when either
index is out of range (in the source such an access is always in range). -/
def elemsEqB (a b : List α) (i j : Nat) : Bool :=
  match a.get? i, b.get? j with
  | some u, some v => decide (u = v)
  | _, _ => false

/-- The inner `for j in b2j.get(a[i], nothing)` loop of `find_longest_match`:
`continue` on `j < blo`, `break` on `j >= bhi`, otherwise
`k = newj2len[j] = j2len.get(j-1, 0) + 1` and the best match is updated when
`k > bestsize`.  `j2len` is the table from the previous outer iteration,
represented as a total function that is `0` outside its entries (Python's
`dict.get(j-1, 0)`; for `j = 0` Python looks up key `-1`, absent, hence the
`j = 0` case).  Python's `i-k+1`/`j-k+1` are non-negative here (`k ≤ i+1` and
`k ≤ j+1` on every reachable state), and are written `i+1-k`/`j+1-k`. -/
def flmInner (blo bhi : Nat) (j2len : Nat → Nat) (i : Nat) :
    List Nat → FlmBest → (Nat → Nat) → FlmBest × (Nat → Nat)
  | [], best, newj2len => (best, newj2len)
  | j :: rest, best, newj2len =>
    if j < blo then flmInner blo bhi j2len i rest best newj2len
    else if bhi ≤ j then (best, newj2len)
    else
      let k := (if j = 0 then 0 else j2len (j - 1)) + 1
      let newj2len2 : Nat → Nat := fun m => if m = j then k else newj2len m
      let best2 := if best.bestsize < k then ⟨i + 1 - k, j + 1 - k, k⟩ else best
      flmInner blo bhi j2len i rest best2 newj2len2

/-- One iteration of the outer `for i in range(alo, ahi)` loop of
`find_longest_match`: run the inner loop over `b2j.get(a[i], nothing)`
starting from an empty `newj2len`, then replace `j2len` by it. -/
def flmOuterStep (a b : List α) (blo bhi : Nat)
    (st : FlmBest × (Nat → Nat)) (i : Nat) : FlmBest × (Nat → Nat) :=
  let js := match a.get? i with
    | some x => b2j b x
    | none => []
  flmInner blo bhi st.2 i js st.1 (fun _ => 0)

/-- The dynamic-programming part of `find_longest_match`: the outer loop over
`range(alo, ahi)`, starting from `besti, bestj, bestsize = alo, blo, 0` and an
empty `j2len`. -/
def flmDP (a b : List α) (alo ahi blo bhi : Nat) : FlmBest × (Nat → Nat) :=
  (List.range' alo (ahi - alo)).foldl (flmOuterStep a b blo bhi) (⟨alo, blo, 0⟩, fun _ => 0)

/-- The first `while` loop after the DP: extend the best match backwards while
`besti > alo and bestj > blo and not isbjunk(b[bestj-1]) and
a[besti-1] == b[bestj-1]` (the junk test is vacuous: `bjunk` is empty for
`isjunk=None`).  The loop runs at most `besti` times, which is the fuel passed
by `findLongestMatch`, so the fuel never truncates it. -/
def extendBack (a b : List α) (alo blo : Nat) : Nat → FlmBest → FlmBest
  | 0, best => best
  | fuel + 1, best =>
    if alo < best.besti ∧ blo < best.bestj ∧
        elemsEqB a b (best.besti - 1) (best.bestj - 1) = true then
      extendBack a b alo blo fuel ⟨best.besti - 1, best.bestj - 1, best.bestsize + 1⟩
    else best

/-- The second `while` loop: extend forwards while
`besti+bestsize < ahi and bestj+bestsize < bhi and not isbjunk(...) and
a[besti+bestsize] == b[bestj+bestsize]`.  It runs at most
`ahi - (besti + bestsize)` times, which is the fuel passed by
`findLongestMatch`.  The final two junk-extension loops of the source never
fire (`isbjunk` is constantly false for `isjunk=None`) and are omitted. -/
def extendFwd (a b : List α) (ahi bhi : Nat) : Nat → FlmBest → FlmBest
  | 0, best => best
  | fuel + 1, best =>
    if best.besti + best.bestsize < ahi ∧ best.bestj + best.bestsize < bhi ∧
        elemsEqB a b (best.besti + best.bestsize) (best.bestj + best.bestsize) = true then
      extendFwd a b ahi bhi fuel ⟨best.besti, best.bestj, best.bestsize + 1⟩
    else best

/-- `SequenceMatcher.find_longest_match(alo, ahi, blo, bhi)` with
`isjunk=None`. -/
def findLongestMatch (a b : List α) (alo ahi blo bhi : Nat) : Nat × Nat × Nat :=
  let best := (flmDP a b alo ahi blo bhi).1
  let best2 := extendBack a b alo blo best.besti best
  let best3 := extendFwd a b ahi bhi (ahi - (best2.besti + best2.bestsize)) best2
  (best3.besti, best3.bestj, best3.bestsize)

/-- The queue-driven loop of `get_matching_blocks` (before merging), rendered
as a recursion: find the longest match of the window; if non-empty, recurse on
the sub-window before it (when `alo < i and blo < j`) and the sub-window after
it (when `i+k < ahi and j+k < bhi`).  The in-order concatenation produces the
blocks already in the sorted order the source obtains with
`matching_blocks.sort()`.  Each recursive window is strictly smaller in
`(ahi - alo) + (bhi - blo)`, so the fuel `a.length + b.length + 1` passed by
`getMatchingBlocks` never truncates the recursion. -/
def matchingBlocksRec (a b : List α) : Nat → Nat → Nat → Nat → Nat → List (Nat × Nat × Nat)
  | 0, _, _, _, _ => []
  | fuel + 1, alo, ahi, blo, bhi =>
    let m := findLongestMatch a b alo ahi blo bhi
    if m.2.2 = 0 then []
    else
      (if alo < m.1 ∧ blo < m.2.1 then matchingBlocksRec a b fuel alo m.1 blo m.2.1 else []) ++
      (m.1, m.2.1, m.2.2) ::
      (if m.1 + m.2.2 < ahi ∧ m.2.1 + m.2.2 < bhi then
        matchingBlocksRec a b fuel (m.1 + m.2.2) ahi (m.2.1 + m.2.2) bhi else [])

/-- The second loop of `get_matching_blocks`: collapse adjacent blocks.  The
argument pair is the pending block `(i1, j1, k1)` (initially `(0, 0, 0)`); a
block with `k1 = 0` is not emitted. -/
def mergeAdjacent : Nat × Nat × Nat → List (Nat × Nat × Nat) → List (Nat × Nat × Nat)
  | (i1, j1, k1), [] => if k1 = 0 then [] else [(i1, j1, k1)]
  | (i1, j1, k1), (i2, j2, k2) :: rest =>
    if i1 + k1 = i2 ∧ j1 + k1 = j2 then mergeAdjacent (i1, j1, k1 + k2) rest
    else (if k1 = 0 then [] else [(i1, j1, k1)]) ++ mergeAdjacent (i2, j2, k2) rest

/-- `SequenceMatcher.get_matching_blocks`: the recursion over the whole
windows, merged, with the sentinel `(la, lb, 0)` appended. -/
def getMatchingBlocks (a b : List α) : List (Nat × Nat × Nat) :=
  mergeAdjacent (0, 0, 0)
    (matchingBlocksRec a b (a.length + b.length + 1) 0 a.length 0 b.length) ++
  [(a.length, b.length, 0)]

/-- The four opcode tags of `get_opcodes`. -/
inductive Tag where
  | equal
  | replace
  | delete
  | insert
deriving DecidableEq

/-- One opcode `(tag, left_start, left_end, right_start, right_end)`. -/
structure Opcode where
  tag : Tag
  l1 : Nat
  l2 : Nat
  r1 : Nat
  r2 : Nat
deriving DecidableEq

/-- The loop of `get_opcodes`: walk the matching blocks with a cursor
`(i, j)`, emitting `replace`/`delete`/`insert` for the gap before each block
and `equal` for the block itself when non-empty. -/
def opcodesLoop : Nat → Nat → List (Nat × Nat × Nat) → List Opcode
  | _, _, [] => []
  | i, j, (ai, bj, size) :: rest =>
    (if i < ai ∧ j < bj then [⟨Tag.replace, i, ai, j, bj⟩]
     else if i < ai then [⟨Tag.delete, i, ai, j, bj⟩]
     else if j < bj then [⟨Tag.insert, i, ai, j, bj⟩]
     else []) ++
    (if size = 0 then [] else [⟨Tag.equal, ai, ai + size, bj, bj + size⟩]) ++
    opcodesLoop (ai + size) (bj + size) rest

/-- `difflib.SequenceMatcher(a=a, b=b).get_opcodes()` — the value of
`DiffEditor.diff` when `a`, `b` are the two buffers' line sequences, and of
`line_diff` when they are two strings. -/
def getOpcodes (a b : List α) : List Opcode :=
  opcodesLoop 0 0 (getMatchingBlocks a b)

/-! ## Validity of the matching blocks -/

/-- `a[i:i+k] == b[j:j+k]`, with both slices in range. -/
def matchAt (a b : List α) (i j k : Nat) : Prop :=
  ∀ t, t < k → ∃ x, a.get? (i + t) = some x ∧ b.get? (j + t) = some x

theorem matchAt_zero (a b : List α) (i j : Nat) : matchAt a b i j 0 :=
  fun t ht => absurd ht (Nat.not_lt_zero t)

theorem matchAt_append {a b : List α} {i j k1 k2 : Nat}
    (h1 : matchAt a b i j k1) (h2 : matchAt a b (i + k1) (j + k1) k2) :
    matchAt a b i j (k1 + k2) := by
  intro t ht
  by_cases h : t < k1
  · exact h1 t h
  · obtain ⟨x, hx1, hx2⟩ := h2 (t - k1) (by omega)
    exact ⟨x, by rwa [show i + k1 + (t - k1) = i + t by omega] at hx1,
      by rwa [show j + k1 + (t - k1) = j + t by omega] at hx2⟩

theorem matchAt_le_length {a b : List α} {i j k : Nat} (h : matchAt a b i j k)
    (hk : 0 < k) : i + k ≤ a.length ∧ j + k ≤ b.length := by
  obtain ⟨x, hx1, hx2⟩ := h (k - 1) (by omega)
  rw [List.get?_eq_getElem?, List.getElem?_eq_some] at hx1 hx2
  obtain ⟨h1, -⟩ := hx1
  obtain ⟨h2, -⟩ := hx2
  omega

theorem elemsEqB_true {a b : List α} {i j : Nat} (h : elemsEqB a b i j = true) :
    ∃ x, a.get? i = some x ∧ b.get? j = some x := by
  unfold elemsEqB at h
  rcases ha : a.get? i with - | u <;> rcases hb : b.get? j with - | v <;>
    rw [ha, hb] at h <;> simp at h
  exact ⟨u, rfl, by rw [h]⟩

theorem mem_b2j {b : List α} {x : α} {j : Nat} (h : j ∈ b2j b x) :
    b.get? j = some x := by
  simp only [b2j] at h
  split at h
  · simp at h
  · unfold occIndices at h
    rw [List.mem_filter] at h
    exact of_decide_eq_true h.2

/-- Unconditional soundness of the running best match: it is either still the
initial `(alo, blo, 0)` or a genuine in-window match. -/
def BestOK (a b : List α) (alo ahi blo bhi : Nat) (best : FlmBest) : Prop :=
  best = ⟨alo, blo, 0⟩ ∨
  (1 ≤ best.bestsize ∧ alo ≤ best.besti ∧ blo ≤ best.bestj ∧
   best.besti + best.bestsize ≤ ahi ∧ best.bestj + best.bestsize ≤ bhi ∧
   matchAt a b best.besti best.bestj best.bestsize)

/-- Soundness of a `j2len` table whose runs end at index `e - 1` of `a`:
a positive entry `f j` is the length of a match of `a[e-f j:e]` against
`b[j+1-f j:j+1]` lying inside the window. -/
def J2OK (a b : List α) (alo blo bhi e : Nat) (f : Nat → Nat) : Prop :=
  ∀ j, 0 < f j → blo ≤ j ∧ j < bhi ∧ blo + f j ≤ j + 1 ∧ alo + f j ≤ e ∧
    matchAt a b (e - f j) (j + 1 - f j) (f j)

theorem j2ok_zero (a b : List α) (alo blo bhi e : Nat) :
    J2OK a b alo blo bhi e (fun _ => 0) := by
  intro j hj
  simp at hj

theorem flmInner_ok {a b : List α} {alo ahi blo bhi : Nat} {i : Nat}
    (hi1 : alo ≤ i) (hi2 : i < ahi) {j2old : Nat → Nat}
    (hold : J2OK a b alo blo bhi i j2old) :
    ∀ (js : List Nat) (best : FlmBest) (nj : Nat → Nat),
    (∀ j ∈ js, ∃ x, a.get? i = some x ∧ b.get? j = some x) →
    BestOK a b alo ahi blo bhi best →
    J2OK a b alo blo bhi (i + 1) nj →
    BestOK a b alo ahi blo bhi (flmInner blo bhi j2old i js best nj).1 ∧
    J2OK a b alo blo bhi (i + 1) (flmInner blo bhi j2old i js best nj).2 := by
  intro js
  induction js with
  | nil => intro best nj _ hb hn; exact ⟨hb, hn⟩
  | cons j rest ih =>
    intro best nj hjs hb hn
    rw [flmInner]
    split
    · exact ih best nj (fun m hm => hjs m (List.mem_cons_of_mem j hm)) hb hn
    · split
      · exact ⟨hb, hn⟩
      · rename_i hblo hbhi
        have hj1 : blo ≤ j := by omega
        have hj2 : j < bhi := by omega
        obtain ⟨x, hxa, hxb⟩ := hjs j (List.mem_cons_self j rest)
        set k := (if j = 0 then 0 else j2old (j - 1)) + 1 with hk
        have hentry : blo + k ≤ j + 1 ∧ alo + k ≤ i + 1 ∧
            matchAt a b (i + 1 - k) (j + 1 - k) k := by
          by_cases hcase : j = 0 ∨ j2old (j - 1) = 0
          · have hk1 : k = 1 := by
              rcases hcase with hc | hc
              · simp [hk, hc]
              · rcases Nat.eq_zero_or_pos j with hj0 | hj0
                · simp [hk, hj0]
                · simp [hk, Nat.pos_iff_ne_zero.mp hj0, hc]
            refine ⟨by omega, by omega, ?_⟩
            intro t ht
            have ht0 : t = 0 := by omega
            subst ht0
            rw [hk1]
            exact ⟨x, by simpa using hxa, by simpa using hxb⟩
          · push_neg at hcase
            obtain ⟨hj0, hp⟩ := hcase
            set p := j2old (j - 1) with hpdef
            have hp0 : 0 < p := Nat.pos_of_ne_zero hp
            obtain ⟨h1, h2, h3, h4, h5⟩ := hold (j - 1) hp0
            have hk1 : k = p + 1 := by simp [hk, hj0]
            refine ⟨by omega, by omega, ?_⟩
            rw [hk1]
            have hstart1 : i + 1 - (p + 1) = i - p := by omega
            have hstart2 : j + 1 - (p + 1) = j - p := by omega
            rw [hstart1, hstart2]
            have hmid : matchAt a b (i - p) (j - p) p := by
              have : j - 1 + 1 - p = j - p := by omega
              rwa [this] at h5
            refine matchAt_append hmid ?_
            intro t ht
            have ht0 : t = 0 := by omega
            subst ht0
            refine ⟨x, ?_, ?_⟩
            · rw [show i - p + p + 0 = i by omega]; exact hxa
            · rw [show j - p + p + 0 = j by omega]; exact hxb
        obtain ⟨he1, he2, he3⟩ := hentry
        have hnj2 : J2OK a b alo blo bhi (i + 1)
            (fun m => if m = j then k else nj m) := by
          intro m hm
          by_cases hmj : m = j
          · subst hmj
            simp only [if_pos rfl] at hm ⊢
            exact ⟨hj1, hj2, he1, he2, he3⟩
          · simp only [if_neg hmj] at hm ⊢
            exact hn m hm
        have hbest2 : BestOK a b alo ahi blo bhi
            (if best.bestsize < k then ⟨i + 1 - k, j + 1 - k, k⟩ else best) := by
          by_cases hlt : best.bestsize < k
          · rw [if_pos hlt]
            right
            refine ⟨?_, ?_, ?_, ?_, ?_, ?_⟩ <;> dsimp only
            · omega
            · omega
            · omega
            · omega
            · omega
            · exact he3
          · rw [if_neg hlt]
            exact hb
        exact ih _ _ (fun m hm => hjs m (List.mem_cons_of_mem j hm)) hbest2 hnj2

theorem flmFold_ok {a b : List α} {alo ahi blo bhi : Nat} :
    ∀ (n s : Nat) (st : FlmBest × (Nat → Nat)),
    alo ≤ s → s + n ≤ ahi →
    BestOK a b alo ahi blo bhi st.1 → J2OK a b alo blo bhi s st.2 →
    BestOK a b alo ahi blo bhi
      ((List.range' s n).foldl (flmOuterStep a b blo bhi) st).1 ∧
    J2OK a b alo blo bhi (s + n)
      ((List.range' s n).foldl (flmOuterStep a b blo bhi) st).2 := by
  intro n
  induction n with
  | zero => intro s st _ _ hb hj; simpa using ⟨hb, hj⟩
  | succ m ih =>
    intro s st hs hsn hb hj
    rw [List.range'_succ, List.foldl_cons]
    have hjs : ∀ j ∈ (match a.get? s with | some x => b2j b x | none => []),
        ∃ x, a.get? s = some x ∧ b.get? j = some x := by
      intro j hj2
      rcases hxa : a.get? s with - | x
      · rw [hxa] at hj2
        exact ((List.not_mem_nil j) hj2).elim
      · rw [hxa] at hj2
        exact ⟨x, rfl, mem_b2j hj2⟩
    have hstep := @flmInner_ok α _ a b alo ahi blo bhi s hs (by omega) st.2 hj
      (match a.get? s with | some x => b2j b x | none => []) st.1 (fun _ => 0)
      hjs hb (j2ok_zero a b alo blo bhi (s + 1))
    have hres := ih (s + 1) (flmOuterStep a b blo bhi st s) (by omega) (by omega)
      hstep.1 hstep.2
    rwa [show s + 1 + m = s + (m + 1) by omega] at hres

theorem extendBack_ok {a b : List α} {alo ahi blo bhi : Nat} :
    ∀ (fuel : Nat) (best : FlmBest), BestOK a b alo ahi blo bhi best →
    BestOK a b alo ahi blo bhi (extendBack a b alo blo fuel best) := by
  intro fuel
  induction fuel with
  | zero => intro best hb; exact hb
  | succ m ih =>
    intro best hb
    rw [extendBack]
    split
    · rename_i hcond
      obtain ⟨h1, h2, h3⟩ := hcond
      obtain ⟨x, hxa, hxb⟩ := elemsEqB_true h3
      refine ih _ ?_
      rcases hb with hb | ⟨hk, hi, hj, hia, hjb, hm⟩
      · rw [hb] at h1; dsimp only at h1; omega
      · right
        have hone : matchAt a b (best.besti - 1) (best.bestj - 1) 1 := by
          intro t ht
          have ht0 : t = 0 := by omega
          subst ht0
          exact ⟨x, by simpa using hxa, by simpa using hxb⟩
        have hrest : matchAt a b (best.besti - 1 + 1) (best.bestj - 1 + 1)
            best.bestsize := by
          have e1 : best.besti - 1 + 1 = best.besti := by omega
          have e2 : best.bestj - 1 + 1 = best.bestj := by omega
          rw [e1, e2]
          exact hm
        have hall := matchAt_append hone hrest
        rw [Nat.add_comm 1 best.bestsize] at hall
        refine ⟨?_, ?_, ?_, ?_, ?_, ?_⟩ <;> dsimp only
        · omega
        · omega
        · omega
        · omega
        · omega
        · exact hall
    · exact hb

theorem extendFwd_ok {a b : List α} {alo ahi blo bhi : Nat} :
    ∀ (fuel : Nat) (best : FlmBest), BestOK a b alo ahi blo bhi best →
    BestOK a b alo ahi blo bhi (extendFwd a b ahi bhi fuel best) := by
  intro fuel
  induction fuel with
  | zero => intro best hb; exact hb
  | succ m ih =>
    intro best hb
    rw [extendFwd]
    split
    · rename_i hcond
      obtain ⟨h1, h2, h3⟩ := hcond
      obtain ⟨x, hxa, hxb⟩ := elemsEqB_true h3
      refine ih _ ?_
      right
      have hnew : matchAt a b best.besti best.bestj (best.bestsize + 1) := by
        have hone : matchAt a b (best.besti + best.bestsize)
            (best.bestj + best.bestsize) 1 := by
          intro t ht
          have ht0 : t = 0 := by omega
          subst ht0
          exact ⟨x, by simpa using hxa, by simpa using hxb⟩
        have hbase : matchAt a b best.besti best.bestj best.bestsize := by
          rcases hb with hb | ⟨-, -, -, -, -, hm⟩
          · rw [hb]; dsimp only; exact matchAt_zero a b alo blo
          · exact hm
        exact matchAt_append hbase hone
      rcases hb with hb | ⟨hk, hi, hj, hia, hjb, hm⟩
      · rw [hb] at h1 h2 hnew ⊢
        dsimp only at h1 h2 hnew ⊢
        refine ⟨?_, ?_, ?_, ?_, ?_, hnew⟩ <;> omega
      · dsimp only at h1 h2 ⊢
        refine ⟨?_, ?_, ?_, ?_, ?_, hnew⟩ <;> omega
    · exact hb

/-- Soundness of `findLongestMatch` on a well-formed window: an empty result
sits at `(alo, blo)`; a non-empty result is a genuine match inside the
window. -/
theorem flm_ok (a b : List α) (alo ahi blo bhi : Nat) (h1 : alo ≤ ahi) :
    (((findLongestMatch a b alo ahi blo bhi).2.2 = 0 →
      (findLongestMatch a b alo ahi blo bhi).1 = alo ∧
      (findLongestMatch a b alo ahi blo bhi).2.1 = blo)) ∧
    ((findLongestMatch a b alo ahi blo bhi).2.2 ≠ 0 →
      alo ≤ (findLongestMatch a b alo ahi blo bhi).1 ∧
      blo ≤ (findLongestMatch a b alo ahi blo bhi).2.1 ∧
      (findLongestMatch a b alo ahi blo bhi).1 +
        (findLongestMatch a b alo ahi blo bhi).2.2 ≤ ahi ∧
      (findLongestMatch a b alo ahi blo bhi).2.1 +
        (findLongestMatch a b alo ahi blo bhi).2.2 ≤ bhi ∧
      matchAt a b (findLongestMatch a b alo ahi blo bhi).1
        (findLongestMatch a b alo ahi blo bhi).2.1
        (findLongestMatch a b alo ahi blo bhi).2.2) := by
  have hdp : BestOK a b alo ahi blo bhi (flmDP a b alo ahi blo bhi).1 := by
    have h := @flmFold_ok α _ a b alo ahi blo bhi (ahi - alo) alo
      (⟨alo, blo, 0⟩, fun _ => 0) (le_refl alo) (by omega)
      (Or.inl rfl) (j2ok_zero a b alo blo bhi alo)
    exact h.1
  have h2 : BestOK a b alo ahi blo bhi
      (extendBack a b alo blo (flmDP a b alo ahi blo bhi).1.besti
        (flmDP a b alo ahi blo bhi).1) :=
    @extendBack_ok α _ a b alo ahi blo bhi (flmDP a b alo ahi blo bhi).1.besti
      (flmDP a b alo ahi blo bhi).1 hdp
  have h3 := @extendFwd_ok α _ a b alo ahi blo bhi
    (ahi - ((extendBack a b alo blo (flmDP a b alo ahi blo bhi).1.besti
      (flmDP a b alo ahi blo bhi).1).besti +
      (extendBack a b alo blo (flmDP a b alo ahi blo bhi).1.besti
      (flmDP a b alo ahi blo bhi).1).bestsize)) _ h2
  unfold findLongestMatch
  simp only
  rcases h3 with h | ⟨hk, hi, hj, hia, hjb, hm⟩
  · rw [h]
    exact ⟨fun _ => ⟨rfl, rfl⟩, fun hne => absurd rfl hne⟩
  · exact ⟨fun h0 => by omega, fun _ => ⟨hi, hj, hia, hjb, hm⟩⟩

/-- A list of matching blocks is chained from the cursor `(i, j)`: block starts
never move backwards between consecutive blocks, each block is inside both
sequences, and each block is a genuine match. -/
inductive BChain (a b : List α) : Nat → Nat → List (Nat × Nat × Nat) → Prop where
  | nil : ∀ i j, BChain a b i j []
  | cons : ∀ i j ai bj k rest, i ≤ ai → j ≤ bj → ai + k ≤ a.length →
      bj + k ≤ b.length → matchAt a b ai bj k → BChain a b (ai + k) (bj + k) rest →
      BChain a b i j ((ai, bj, k) :: rest)

/-- The cursor position after walking a block list. -/
def blocksEnd : Nat → Nat → List (Nat × Nat × Nat) → Nat × Nat
  | i, j, [] => (i, j)
  | _, _, (ai, bj, k) :: rest => blocksEnd (ai + k) (bj + k) rest

theorem bchain_mono {a b : List α} {i j : Nat} {bl : List (Nat × Nat × Nat)}
    (h : BChain a b i j bl) :
    ∀ i2 j2, i2 ≤ i → j2 ≤ j → BChain a b i2 j2 bl := by
  induction h with
  | nil i j => intro i2 j2 _ _; exact BChain.nil i2 j2
  | cons i j ai bj k rest h1 h2 h3 h4 h5 h6 ih =>
    intro i2 j2 hi2 hj2
    exact BChain.cons i2 j2 ai bj k rest (by omega) (by omega) h3 h4 h5 h6

theorem blocksEnd_append (bl1 bl2 : List (Nat × Nat × Nat)) :
    ∀ i j, blocksEnd i j (bl1 ++ bl2) =
      blocksEnd (blocksEnd i j bl1).1 (blocksEnd i j bl1).2 bl2 := by
  induction bl1 with
  | nil => intro i j; rfl
  | cons hd tl ih =>
    intro i j
    rcases hd with ⟨ai, bj, k⟩
    rw [List.cons_append]
    rw [show blocksEnd i j ((ai, bj, k) :: (tl ++ bl2)) =
      blocksEnd (ai + k) (bj + k) (tl ++ bl2) from rfl]
    rw [show blocksEnd i j ((ai, bj, k) :: tl) = blocksEnd (ai + k) (bj + k) tl from rfl]
    exact ih (ai + k) (bj + k)

theorem bchain_append {a b : List α} {bl1 bl2 : List (Nat × Nat × Nat)} :
    ∀ i j, BChain a b i j bl1 →
    BChain a b (blocksEnd i j bl1).1 (blocksEnd i j bl1).2 bl2 →
    BChain a b i j (bl1 ++ bl2) := by
  induction bl1 with
  | nil =>
    intro i j _ h2
    exact h2
  | cons hd tl ih =>
    intro i j h1 h2
    rcases hd with ⟨ai, bj, k⟩
    cases h1 with
    | cons _ _ _ _ _ _ ha hb hc hd2 he hf =>
      exact BChain.cons i j ai bj k (tl ++ bl2) ha hb hc hd2 he
        (ih (ai + k) (bj + k) hf h2)

theorem blocksEnd_ge {a b : List α} :
    ∀ (bl : List (Nat × Nat × Nat)) (i j : Nat), BChain a b i j bl →
    i ≤ (blocksEnd i j bl).1 ∧ j ≤ (blocksEnd i j bl).2 := by
  intro bl
  induction bl with
  | nil => intro i j _; exact ⟨le_refl i, le_refl j⟩
  | cons hd tl ih =>
    intro i j h
    rcases hd with ⟨ai, bj, k⟩
    cases h with
    | cons _ _ _ _ _ _ ha hb hc hd2 he hf =>
      have := ih (ai + k) (bj + k) hf
      exact ⟨by have := this.1; rw [show blocksEnd i j ((ai, bj, k) :: tl) =
          blocksEnd (ai + k) (bj + k) tl from rfl]; omega,
        by have := this.2; rw [show blocksEnd i j ((ai, bj, k) :: tl) =
          blocksEnd (ai + k) (bj + k) tl from rfl]; omega⟩

/-- Soundness of the matching-block recursion on a well-formed window: the
blocks are chained from `(alo, blo)` and the final cursor stays inside the
window. -/
theorem mbr_ok {a b : List α} :
    ∀ (fuel alo ahi blo bhi : Nat), alo ≤ ahi → ahi ≤ a.length →
    blo ≤ bhi → bhi ≤ b.length →
    BChain a b alo blo (matchingBlocksRec a b fuel alo ahi blo bhi) ∧
    (blocksEnd alo blo (matchingBlocksRec a b fuel alo ahi blo bhi)).1 ≤ ahi ∧
    (blocksEnd alo blo (matchingBlocksRec a b fuel alo ahi blo bhi)).2 ≤ bhi := by
  intro fuel
  induction fuel with
  | zero =>
    intro alo ahi blo bhi h1 h2 h3 h4
    exact ⟨BChain.nil alo blo, h1, h3⟩
  | succ n ih =>
    intro alo ahi blo bhi h1 h2 h3 h4
    rw [matchingBlocksRec]
    have hflm := flm_ok a b alo ahi blo bhi h1
    by_cases hz : (findLongestMatch a b alo ahi blo bhi).2.2 = 0
    · rw [if_pos hz]
      exact ⟨BChain.nil alo blo, h1, h3⟩
    · rw [if_neg hz]
      obtain ⟨hi, hj, hia, hjb, hm⟩ := hflm.2 hz
      set i := (findLongestMatch a b alo ahi blo bhi).1 with hidef
      set j := (findLongestMatch a b alo ahi blo bhi).2.1 with hjdef
      set k := (findLongestMatch a b alo ahi blo bhi).2.2 with hkdef
      have hleft : BChain a b alo blo
          (if alo < i ∧ blo < j then matchingBlocksRec a b n alo i blo j else []) ∧
          (blocksEnd alo blo
            (if alo < i ∧ blo < j then matchingBlocksRec a b n alo i blo j else [])).1 ≤ i ∧
          (blocksEnd alo blo
            (if alo < i ∧ blo < j then matchingBlocksRec a b n alo i blo j else [])).2 ≤ j := by
        by_cases hc : alo < i ∧ blo < j
        · rw [if_pos hc]
          exact ih alo i blo j (by omega) (by omega) (by omega) (by omega)
        · rw [if_neg hc]
          exact ⟨BChain.nil alo blo, hi, hj⟩
      have hright : BChain a b (i + k) (j + k)
          (if i + k < ahi ∧ j + k < bhi then
            matchingBlocksRec a b n (i + k) ahi (j + k) bhi else []) ∧
          (blocksEnd (i + k) (j + k)
            (if i + k < ahi ∧ j + k < bhi then
              matchingBlocksRec a b n (i + k) ahi (j + k) bhi else [])).1 ≤ ahi ∧
          (blocksEnd (i + k) (j + k)
            (if i + k < ahi ∧ j + k < bhi then
              matchingBlocksRec a b n (i + k) ahi (j + k) bhi else [])).2 ≤ bhi := by
        by_cases hc : i + k < ahi ∧ j + k < bhi
        · rw [if_pos hc]
          exact ih (i + k) ahi (j + k) bhi (by omega) h2 (by omega) h4
        · rw [if_neg hc]
          exact ⟨BChain.nil (i + k) (j + k), hia, hjb⟩
      have hmid : BChain a b (blocksEnd alo blo
          (if alo < i ∧ blo < j then matchingBlocksRec a b n alo i blo j else [])).1
          (blocksEnd alo blo
          (if alo < i ∧ blo < j then matchingBlocksRec a b n alo i blo j else [])).2
          ((i, j, k) :: (if i + k < ahi ∧ j + k < bhi then
            matchingBlocksRec a b n (i + k) ahi (j + k) bhi else [])) := by
        exact BChain.cons _ _ i j k _ hleft.2.1 hleft.2.2 (by omega) (by omega)
          hm hright.1
      refine ⟨bchain_append alo blo hleft.1 hmid, ?_, ?_⟩
      · rw [blocksEnd_append]
        rw [show blocksEnd (blocksEnd alo blo _).1 (blocksEnd alo blo _).2
          ((i, j, k) :: _) = blocksEnd (i + k) (j + k)
          (if i + k < ahi ∧ j + k < bhi then
            matchingBlocksRec a b n (i + k) ahi (j + k) bhi else []) from rfl]
        exact hright.2.1
      · rw [blocksEnd_append]
        rw [show blocksEnd (blocksEnd alo blo _).1 (blocksEnd alo blo _).2
          ((i, j, k) :: _) = blocksEnd (i + k) (j + k)
          (if i + k < ahi ∧ j + k < bhi then
            matchingBlocksRec a b n (i + k) ahi (j + k) bhi else []) from rfl]
        exact hright.2.2

theorem blocksEnd_le_of_bchain {a b : List α} :
    ∀ (bl : List (Nat × Nat × Nat)) (i j : Nat), BChain a b i j bl →
    i ≤ a.length → j ≤ b.length →
    (blocksEnd i j bl).1 ≤ a.length ∧ (blocksEnd i j bl).2 ≤ b.length := by
  intro bl
  induction bl with
  | nil => intro i j _ h1 h2; exact ⟨h1, h2⟩
  | cons hd tl ih =>
    intro i j h h1 h2
    rcases hd with ⟨ai, bj, k⟩
    cases h with
    | cons _ _ _ _ _ _ ha hb hc hd2 he hf =>
      rw [show blocksEnd i j ((ai, bj, k) :: tl) =
        blocksEnd (ai + k) (bj + k) tl from rfl]
      exact ih (ai + k) (bj + k) hf hc hd2

theorem mergeAdjacent_ok {a b : List α} :
    ∀ (bl : List (Nat × Nat × Nat)) (i0 j0 i1 j1 k1 : Nat),
    i0 ≤ i1 → j0 ≤ j1 → i1 + k1 ≤ a.length → j1 + k1 ≤ b.length →
    matchAt a b i1 j1 k1 → BChain a b (i1 + k1) (j1 + k1) bl →
    BChain a b i0 j0 (mergeAdjacent (i1, j1, k1) bl) := by
  intro bl
  induction bl with
  | nil =>
    intro i0 j0 i1 j1 k1 h0 h1 h2 h3 hm _
    rw [mergeAdjacent]
    by_cases hk : k1 = 0
    · rw [if_pos hk]
      exact BChain.nil i0 j0
    · rw [if_neg hk]
      exact BChain.cons i0 j0 i1 j1 k1 [] h0 h1 h2 h3 hm (BChain.nil _ _)
  | cons hd tl ih =>
    intro i0 j0 i1 j1 k1 h0 h1 h2 h3 hm hch
    rcases hd with ⟨i2, j2, k2⟩
    cases hch with
    | cons _ _ _ _ _ _ ha hb hc hd2 he hf =>
      rw [mergeAdjacent]
      by_cases hadj : i1 + k1 = i2 ∧ j1 + k1 = j2
      · rw [if_pos hadj]
        refine ih i0 j0 i1 j1 (k1 + k2) h0 h1 (by omega) (by omega) ?_ ?_
        · refine matchAt_append hm ?_
          rw [hadj.1, hadj.2]
          exact he
        · rw [show i1 + (k1 + k2) = i2 + k2 by omega,
            show j1 + (k1 + k2) = j2 + k2 by omega]
          exact hf
      · rw [if_neg hadj]
        by_cases hk : k1 = 0
        · rw [if_pos hk]
          rw [List.nil_append]
          exact ih i0 j0 i2 j2 k2 (by omega) (by omega) hc hd2 he hf
        · rw [if_neg hk]
          rw [List.singleton_append]
          exact BChain.cons i0 j0 i1 j1 k1 _ h0 h1 h2 h3 hm
            (ih (i1 + k1) (j1 + k1) i2 j2 k2 ha hb hc hd2 he hf)

/-- Soundness of `getMatchingBlocks`: its blocks are chained from `(0, 0)` and
walk exactly to `(len a, len b)` (the sentinel). -/
theorem gmb_ok (a b : List α) :
    BChain a b 0 0 (getMatchingBlocks a b) ∧
    blocksEnd 0 0 (getMatchingBlocks a b) = (a.length, b.length) := by
  have hmbr := @mbr_ok α _ a b (a.length + b.length + 1) 0 a.length 0 b.length
    (Nat.zero_le _) (le_refl _) (Nat.zero_le _) (le_refl _)
  have hmerged : BChain a b 0 0 (mergeAdjacent (0, 0, 0)
      (matchingBlocksRec a b (a.length + b.length + 1) 0 a.length 0 b.length)) := by
    exact mergeAdjacent_ok _ 0 0 0 0 0 (le_refl 0) (le_refl 0)
      (Nat.zero_le _) (Nat.zero_le _) (matchAt_zero a b 0 0) hmbr.1
  have hend := blocksEnd_le_of_bchain _ 0 0 hmerged (Nat.zero_le _) (Nat.zero_le _)
  constructor
  · refine bchain_append 0 0 hmerged ?_
    exact BChain.cons _ _ a.length b.length 0 [] hend.1 hend.2
      (by omega) (by omega) (matchAt_zero a b _ _) (BChain.nil _ _)
  · rw [getMatchingBlocks, blocksEnd_append]
    rw [show blocksEnd _ _ [(a.length, b.length, 0)] =
      (a.length + 0, b.length + 0) from rfl]
    simp

/-! ## Validity of the opcode list -/

/-- Tag-specific validity of one opcode, as produced by `get_opcodes`:
`equal` ranges have the same size and matching content, `delete` has an empty
right range, `insert` an empty left range. -/
def OpcodeOK (a b : List α) (op : Opcode) : Prop :=
  match op.tag with
  | Tag.equal => op.l2 - op.l1 = op.r2 - op.r1 ∧ op.l1 < op.l2 ∧
      matchAt a b op.l1 op.r1 (op.l2 - op.l1)
  | Tag.replace => op.l1 < op.l2 ∧ op.r1 < op.r2
  | Tag.delete => op.l1 < op.l2 ∧ op.r1 = op.r2
  | Tag.insert => op.l1 = op.l2 ∧ op.r1 < op.r2

/-- The opcode list is bi-contiguous from the cursor `(i, j)`: each opcode
starts exactly at the cursor on both sides and moves it to `(l2, r2)`, and the
list ends exactly at `(len a, len b)`. -/
inductive OpsChain (a b : List α) : Nat → Nat → List Opcode → Prop where
  | nil : OpsChain a b a.length b.length []
  | cons : ∀ i j op rest, op.l1 = i → op.r1 = j → i ≤ op.l2 → j ≤ op.r2 →
      op.l2 ≤ a.length → op.r2 ≤ b.length → OpcodeOK a b op →
      OpsChain a b op.l2 op.r2 rest → OpsChain a b i j (op :: rest)

theorem opcodesLoop_ok {a b : List α} :
    ∀ (bl : List (Nat × Nat × Nat)) (i j : Nat), BChain a b i j bl →
    blocksEnd i j bl = (a.length, b.length) → i ≤ a.length → j ≤ b.length →
    OpsChain a b i j (opcodesLoop i j bl) := by
  intro bl
  induction bl with
  | nil =>
    intro i j _ hend _ _
    rw [show blocksEnd i j [] = (i, j) from rfl] at hend
    have h1 : i = a.length := congrArg Prod.fst hend
    have h2 : j = b.length := congrArg Prod.snd hend
    subst h1
    subst h2
    exact OpsChain.nil
  | cons hd tl ih =>
    intro i j hch hend hi hj
    rcases hd with ⟨ai, bj, k⟩
    cases hch with
    | cons _ _ _ _ _ _ ha hb hc hd2 he hf =>
      rw [show blocksEnd i j ((ai, bj, k) :: tl) =
        blocksEnd (ai + k) (bj + k) tl from rfl] at hend
      have hrest : OpsChain a b (ai + k) (bj + k)
          (opcodesLoop (ai + k) (bj + k) tl) :=
        ih (ai + k) (bj + k) hf hend hc hd2
      rw [opcodesLoop]
      have hmid : OpsChain a b ai bj
          ((if k = 0 then [] else [⟨Tag.equal, ai, ai + k, bj, bj + k⟩]) ++
            opcodesLoop (ai + k) (bj + k) tl) := by
        by_cases hk : k = 0
        · rw [if_pos hk, List.nil_append]
          subst hk
          exact hrest
        · rw [if_neg hk, List.singleton_append]
          refine OpsChain.cons ai bj _ _ rfl rfl (by dsimp only; omega)
            (by dsimp only; omega) (by dsimp only; omega) (by dsimp only; omega)
            ?_ hrest
          refine ⟨by dsimp only; omega, by dsimp only; omega, ?_⟩
          have hkk : ai + k - ai = k := by omega
          rw [hkk]
          exact he
      by_cases h1 : i < ai ∧ j < bj
      · rw [if_pos h1, List.singleton_append]
        exact OpsChain.cons i j _ _ rfl rfl (by dsimp only; omega)
          (by dsimp only; omega) (by dsimp only; omega) (by dsimp only; omega)
          ⟨h1.1, h1.2⟩ hmid
      · rw [if_neg h1]
        by_cases h2 : i < ai
        · have hjb : j = bj := by omega
          rw [if_pos h2, List.singleton_append]
          exact OpsChain.cons i j _ _ rfl rfl (by dsimp only; omega)
            (by dsimp only; omega) (by dsimp only; omega) (by dsimp only; omega)
            ⟨h2, hjb⟩ hmid
        · rw [if_neg h2]
          by_cases h3 : j < bj
          · have hia : i = ai := by omega
            rw [if_pos h3, List.singleton_append]
            exact OpsChain.cons i j _ _ rfl rfl (by dsimp only; omega)
              (by dsimp only; omega) (by dsimp only; omega) (by dsimp only; omega)
              ⟨hia, h3⟩ hmid
          · rw [if_neg h3, List.nil_append]
            have hia : i = ai := by omega
            have hjb : j = bj := by omega
            subst hia
            subst hjb
            exact hmid

/-- The opcode list computed by the diff engine is a well-formed bi-contiguous
chain covering `[0, len a)` and `[0, len b)`. -/
theorem getOpcodes_chain (a b : List α) : OpsChain a b 0 0 (getOpcodes a b) := by
  have h := gmb_ok a b
  exact opcodesLoop_ok _ 0 0 h.1 h.2 (Nat.zero_le _) (Nat.zero_le _)

theorem opsChain_cursor_le {a b : List α} {i j : Nat} {ops : List Opcode}
    (h : OpsChain a b i j ops) : i ≤ a.length ∧ j ≤ b.length := by
  induction h with
  | nil => exact ⟨le_refl _, le_refl _⟩
  | cons i j op rest h1 h2 h3 h4 h5 h6 h7 h8 ih => omega

theorem opsChain_mem_bounds {a b : List α} {i j : Nat} {ops : List Opcode}
    (h : OpsChain a b i j ops) :
    ∀ op ∈ ops, i ≤ op.l1 ∧ op.l1 ≤ op.l2 ∧ op.l2 ≤ a.length ∧
      j ≤ op.r1 ∧ op.r1 ≤ op.r2 ∧ op.r2 ≤ b.length := by
  induction h with
  | nil => intro op hop; exact absurd hop (List.not_mem_nil op)
  | cons i j op rest h1 h2 h3 h4 h5 h6 h7 h8 ih =>
    intro op2 hop2
    rcases List.mem_cons.mp hop2 with heq | hmem
    · subst heq
      omega
    · have := ih op2 hmem
      omega

/-- The left ranges of the opcode list cover `[i, len a)` with no gap. -/
theorem opsChain_cover_left {a b : List α} {i j : Nat} {ops : List Opcode}
    (h : OpsChain a b i j ops) :
    ∀ y, i ≤ y → y < a.length → ∃ op ∈ ops, op.l1 ≤ y ∧ y < op.l2 := by
  induction h with
  | nil => intro y h1 h2; omega
  | cons i j op rest h1 h2 h3 h4 h5 h6 h7 h8 ih =>
    intro y hy1 hy2
    by_cases hc : y < op.l2
    · exact ⟨op, List.mem_cons_self op rest, by omega, hc⟩
    · obtain ⟨op2, hm, hb1, hb2⟩ := ih y (by omega) hy2
      exact ⟨op2, List.mem_cons_of_mem op hm, hb1, hb2⟩

/-- The right ranges of the opcode list cover `[j, len b)` with no gap. -/
theorem opsChain_cover_right {a b : List α} {i j : Nat} {ops : List Opcode}
    (h : OpsChain a b i j ops) :
    ∀ y, j ≤ y → y < b.length → ∃ op ∈ ops, op.r1 ≤ y ∧ y < op.r2 := by
  induction h with
  | nil => intro y h1 h2; omega
  | cons i j op rest h1 h2 h3 h4 h5 h6 h7 h8 ih =>
    intro y hy1 hy2
    by_cases hc : y < op.r2
    · exact ⟨op, List.mem_cons_self op rest, by omega, hc⟩
    · obtain ⟨op2, hm, hb1, hb2⟩ := ih y (by omega) hy2
      exact ⟨op2, List.mem_cons_of_mem op hm, hb1, hb2⟩

/-! ## Claim C1: replaying the opcodes reconstructs either buffer -/

/-- The slice `l[s:e]` of a Python list. -/
def slice (l : List α) (s e : Nat) : List α := (l.drop s).take (e - s)

theorem slice_refl_nil (l : List α) (s : Nat) : slice l s s = [] := by
  unfold slice
  rw [Nat.sub_self]
  exact List.take_zero _

theorem slice_zero_length (l : List α) : slice l 0 l.length = l := by
  unfold slice
  rw [List.drop_zero, Nat.sub_zero, List.take_length]

theorem slice_append_slice (l : List α) {s m e : Nat} (h1 : s ≤ m) (h2 : m ≤ e) :
    slice l s m ++ slice l m e = slice l s e := by
  unfold slice
  have hd : l.drop m = (l.drop s).drop (m - s) := by
    rw [List.drop_drop]
    rw [show s + (m - s) = m by omega]
  rw [hd]
  have := List.take_add (l.drop s) (m - s) (e - m)
  rw [show m - s + (e - m) = e - s by omega] at this
  rw [← this]

theorem slice_eq_of_matchAt {a b : List α} {i j k : Nat}
    (h : matchAt a b i j k) : slice a i (i + k) = slice b j (j + k) := by
  apply List.ext_getElem?
  intro n
  unfold slice
  rw [List.getElem?_take, List.getElem?_take, List.getElem?_drop, List.getElem?_drop]
  rw [show i + k - i = k by omega, show j + k - j = k by omega]
  by_cases hn : n < k
  · rw [if_pos hn, if_pos hn]
    obtain ⟨x, hx1, hx2⟩ := h n hn
    rw [List.get?_eq_getElem?] at hx1 hx2
    rw [hx1, hx2]
  · rw [if_neg hn, if_neg hn]

/-- Replay the opcode list left to right, rebuilding the right sequence:
`equal` ranges are copied (from the left buffer), `replace`/`insert` ranges
are taken from the right buffer, and `delete` right ranges are empty and
contribute nothing. -/
def replayRight (a b : List α) (ops : List Opcode) : List α :=
  ops.foldr (fun op acc =>
    (if op.tag = Tag.equal then slice a op.l1 op.l2 else slice b op.r1 op.r2) ++ acc) []

/-- Replay in the other direction, rebuilding the left sequence: `equal`
ranges are copied (from the right buffer), the other ranges are taken from
the left buffer. -/
def replayLeft (a b : List α) (ops : List Opcode) : List α :=
  ops.foldr (fun op acc =>
    (if op.tag = Tag.equal then slice b op.r1 op.r2 else slice a op.l1 op.l2) ++ acc) []

theorem opsChain_replay {a b : List α} {i j : Nat} {ops : List Opcode}
    (h : OpsChain a b i j ops) :
    replayRight a b ops = slice b j b.length ∧
    replayLeft a b ops = slice a i a.length := by
  induction h with
  | nil =>
    rw [slice_refl_nil, slice_refl_nil]
    exact ⟨rfl, rfl⟩
  | cons i j op rest h1 h2 h3 h4 h5 h6 h7 h8 ih =>
    have hcross : op.tag = Tag.equal → slice a op.l1 op.l2 = slice b op.r1 op.r2 := by
      intro htag
      unfold OpcodeOK at h7
      rw [htag] at h7
      have h7e : op.l2 - op.l1 = op.r2 - op.r1 ∧ op.l1 < op.l2 ∧
          matchAt a b op.l1 op.r1 (op.l2 - op.l1) := h7
      obtain ⟨hs, hlt, hm⟩ := h7e
      have hsl := slice_eq_of_matchAt hm
      rw [show op.l1 + (op.l2 - op.l1) = op.l2 by omega] at hsl
      rw [show op.r1 + (op.l2 - op.l1) = op.r2 by omega] at hsl
      exact hsl
    have hcr : (if op.tag = Tag.equal then slice a op.l1 op.l2
        else slice b op.r1 op.r2) = slice b op.r1 op.r2 := by
      by_cases htag : op.tag = Tag.equal
      · rw [if_pos htag]
        exact hcross htag
      · rw [if_neg htag]
    have hcl : (if op.tag = Tag.equal then slice b op.r1 op.r2
        else slice a op.l1 op.l2) = slice a op.l1 op.l2 := by
      by_cases htag : op.tag = Tag.equal
      · rw [if_pos htag]
        exact (hcross htag).symm
      · rw [if_neg htag]
    constructor
    · rw [show replayRight a b (op :: rest) =
        (if op.tag = Tag.equal then slice a op.l1 op.l2
          else slice b op.r1 op.r2) ++ replayRight a b rest from rfl]
      rw [hcr, ih.1, h2]
      exact slice_append_slice b (by omega) h6
    · rw [show replayLeft a b (op :: rest) =
        (if op.tag = Tag.equal then slice b op.r1 op.r2
          else slice a op.l1 op.l2) ++ replayLeft a b rest from rfl]
      rw [hcl, ih.2, h1]
      exact slice_append_slice a (by omega) h5

/-- **C1.** For every two line sequences `L` and `R`, the diff engine's opcode
list (`DiffEditor.diff`, i.e. `difflib.SequenceMatcher(a=L, b=R).get_opcodes()`),
read left to right, reconstructs `R` exactly when `equal` ranges are copied
and `replace`/`insert` ranges are taken from `R`'s corresponding lines, and
reconstructs `L` exactly when substituted in the other direction with `L`'s
lines. -/
theorem diff_opcodes_reconstruct_both (L R : List α) :
    replayRight L R (getOpcodes L R) = R ∧ replayLeft L R (getOpcodes L R) = L := by
  have h := opsChain_replay (getOpcodes_chain L R)
  rw [slice_zero_length, slice_zero_length] at h
  exact h

/-! ## `DiffEditor._equivalent_line`

The source computes, for the first opcode whose from-side range contains `y`,
`fraction = (y - left_start) / (left_end - left_start)` and
`other_y = round(right_start + fraction * (right_end - right_start))`, then
returns `other_y - 1` if `other_y == len(passive_buffer)` else `other_y`.
The float arithmetic is modelled exactly over `ℚ`; Python's `round` rounds
half to even. -/

/-- Python's `round` (round half to even) on an exact rational. -/
def roundHalfEven (q : ℚ) : ℤ :=
  if q - ⌊q⌋ < 1/2 then ⌊q⌋
  else if 1/2 < q - ⌊q⌋ then ⌊q⌋ + 1
  else if Even ⌊q⌋ then ⌊q⌋ else ⌊q⌋ + 1

theorem roundHalfEven_intCast (n : ℤ) : roundHalfEven (n : ℚ) = n := by
  unfold roundHalfEven
  rw [Int.floor_intCast]
  rw [if_pos (by norm_num)]

theorem roundHalfEven_bounds (q : ℚ) :
    ⌊q⌋ ≤ roundHalfEven q ∧ roundHalfEven q ≤ ⌊q⌋ + 1 := by
  unfold roundHalfEven
  split_ifs <;> omega

theorem roundHalfEven_mono {p q : ℚ} (h : p ≤ q) :
    roundHalfEven p ≤ roundHalfEven q := by
  have hf := Int.floor_mono h
  by_cases hfe : (⌊p⌋ : ℤ) = ⌊q⌋
  · have hpq : p - (⌊p⌋ : ℚ) ≤ q - (⌊q⌋ : ℚ) := by
      rw [hfe]
      exact sub_le_sub_right h _
    unfold roundHalfEven
    rw [hfe] at hpq ⊢
    split_ifs <;> first | omega | linarith
  · have hlt : ⌊p⌋ < ⌊q⌋ := lt_of_le_of_ne hf hfe
    have h1 := roundHalfEven_bounds p
    have h2 := roundHalfEven_bounds q
    omega

theorem roundHalfEven_le_int {q : ℚ} {m : ℤ} (h : q ≤ (m : ℚ)) :
    roundHalfEven q ≤ m := by
  have := roundHalfEven_mono h
  rwa [roundHalfEven_intCast] at this

theorem int_le_roundHalfEven {q : ℚ} {m : ℤ} (h : (m : ℚ) ≤ q) :
    m ≤ roundHalfEven q := by
  have := roundHalfEven_mono h
  rwa [roundHalfEven_intCast] at this

/-- The `(left_start, left_end, right_start, right_end)` the loop of
`_equivalent_line` reads from an opcode; the coordinates are swapped when the
active editor is the right one (`self.editors[0] == self.right_editor`). -/
def opSides (activeIsRight : Bool) (op : Opcode) : Nat × Nat × Nat × Nat :=
  if activeIsRight then (op.r1, op.r2, op.l1, op.l2) else (op.l1, op.l2, op.r1, op.r2)

/-- The body of `_equivalent_line` for the opcode whose from-side range
contains `y`: the proportionally mapped `other_y`, decremented by one exactly
when it equals the passive buffer's line count. -/
def opMap (passiveLen ls le rs re y : Nat) : ℤ :=
  let fraction : ℚ := ((y : ℚ) - (ls : ℚ)) / ((le : ℚ) - (ls : ℚ))
  let otherY : ℤ := roundHalfEven ((rs : ℚ) + fraction * ((re : ℚ) - (rs : ℚ)))
  if otherY = (passiveLen : ℤ) then otherY - 1 else otherY

/-- `DiffEditor._equivalent_line(y)`: scan the opcodes of `self.diff` in
order; on the first whose from-side range contains `y`, return the mapped
line; if none contains `y`, fall through and return `y` unchanged. -/
def equivalentLine (activeIsRight : Bool) (passiveLen : Nat) :
    List Opcode → Nat → ℤ
  | [], y => (y : ℤ)
  | op :: rest, y =>
    let s := opSides activeIsRight op
    if s.1 ≤ y ∧ y < s.2.1 then opMap passiveLen s.1 s.2.1 s.2.2.1 s.2.2.2 y
    else equivalentLine activeIsRight passiveLen rest y

theorem equivalentLine_not_covered (act : Bool) (plen : Nat) :
    ∀ (ops : List Opcode) (y : Nat),
    (∀ op ∈ ops, ¬((opSides act op).1 ≤ y ∧ y < (opSides act op).2.1)) →
    equivalentLine act plen ops y = (y : ℤ) := by
  intro ops
  induction ops with
  | nil => intro y _; rfl
  | cons op rest ih =>
    intro y hno
    rw [equivalentLine]
    rw [if_neg (hno op (List.mem_cons_self op rest))]
    exact ih y (fun op2 hm => hno op2 (List.mem_cons_of_mem op hm))

/-- On a chained opcode list the scan of `_equivalent_line` evaluates `y`
through the unique opcode whose left range contains it. -/
theorem equivalentLine_eval {a b : List α} {plen : Nat} :
    ∀ {i j : Nat} {ops : List Opcode}, OpsChain a b i j ops →
    ∀ {op : Opcode}, op ∈ ops → ∀ {y : Nat}, op.l1 ≤ y → y < op.l2 →
    equivalentLine false plen ops y = opMap plen op.l1 op.l2 op.r1 op.r2 y := by
  intro i j ops h
  induction h with
  | nil =>
    intro op hop
    exact absurd hop (List.not_mem_nil op)
  | cons i j op rest h1 h2 h3 h4 h5 h6 h7 h8 ih =>
    intro op2 hop2 y hy1 hy2
    rcases List.mem_cons.mp hop2 with heq | hmem
    · subst heq
      rw [equivalentLine]
      rw [show opSides false op2 = (op2.l1, op2.l2, op2.r1, op2.r2) from rfl]
      rw [if_pos ⟨hy1, hy2⟩]
    · have hb := opsChain_mem_bounds h8 op2 hmem
      rw [equivalentLine]
      rw [show opSides false op = (op.l1, op.l2, op.r1, op.r2) from rfl]
      rw [if_neg (by dsimp only; omega)]
      exact ih hmem hy1 hy2

theorem opMap_bounds {plen ls le rs re y : Nat} (h1 : ls ≤ y) (h2 : y < le)
    (h3 : rs ≤ re) (h4 : re ≤ plen) (h5 : 1 ≤ plen) :
    0 ≤ opMap plen ls le rs re y ∧ opMap plen ls le rs re y < plen := by
  have hlt : ls < le := by omega
  have hden : (0 : ℚ) < (le : ℚ) - (ls : ℚ) := by
    have : ((ls : ℚ)) < (le : ℚ) := by exact_mod_cast hlt
    linarith
  have hnum0 : (0 : ℚ) ≤ (y : ℚ) - (ls : ℚ) := by
    have : ((ls : ℚ)) ≤ (y : ℚ) := by exact_mod_cast h1
    linarith
  have hnum1 : (y : ℚ) - (ls : ℚ) ≤ (le : ℚ) - (ls : ℚ) := by
    have : ((y : ℚ)) ≤ (le : ℚ) := by
      have := le_of_lt h2
      exact_mod_cast this
    linarith
  have hfr0 : (0 : ℚ) ≤ ((y : ℚ) - (ls : ℚ)) / ((le : ℚ) - (ls : ℚ)) :=
    div_nonneg hnum0 (le_of_lt hden)
  have hfr1 : ((y : ℚ) - (ls : ℚ)) / ((le : ℚ) - (ls : ℚ)) ≤ 1 :=
    (div_le_one hden).mpr hnum1
  have hre : (0 : ℚ) ≤ (re : ℚ) - (rs : ℚ) := by
    have : ((rs : ℚ)) ≤ (re : ℚ) := by exact_mod_cast h3
    linarith
  have hvlo : ((rs : ℚ)) ≤ (rs : ℚ) +
      ((y : ℚ) - (ls : ℚ)) / ((le : ℚ) - (ls : ℚ)) * ((re : ℚ) - (rs : ℚ)) := by
    have hm := mul_nonneg hfr0 hre
    linarith
  have hvhi : (rs : ℚ) +
      ((y : ℚ) - (ls : ℚ)) / ((le : ℚ) - (ls : ℚ)) * ((re : ℚ) - (rs : ℚ)) ≤
      (re : ℚ) := by
    have hm : ((y : ℚ) - (ls : ℚ)) / ((le : ℚ) - (ls : ℚ)) * ((re : ℚ) - (rs : ℚ)) ≤
        1 * ((re : ℚ) - (rs : ℚ)) := mul_le_mul_of_nonneg_right hfr1 hre
    linarith
  have hrlo : (rs : ℤ) ≤ roundHalfEven ((rs : ℚ) +
      ((y : ℚ) - (ls : ℚ)) / ((le : ℚ) - (ls : ℚ)) * ((re : ℚ) - (rs : ℚ))) := by
    refine int_le_roundHalfEven ?_
    exact_mod_cast hvlo
  have hrhi : roundHalfEven ((rs : ℚ) +
      ((y : ℚ) - (ls : ℚ)) / ((le : ℚ) - (ls : ℚ)) * ((re : ℚ) - (rs : ℚ))) ≤
      (re : ℤ) := by
    refine roundHalfEven_le_int ?_
    exact_mod_cast hvhi
  have hreplen : (re : ℤ) ≤ (plen : ℤ) := by exact_mod_cast h4
  simp only [opMap]
  split_ifs with hc
  · constructor
    · omega
    · omega
  · constructor
    · omega
    · omega

theorem opMap_mono {plen ls le rs re y1 y2 : Nat} (h1 : ls ≤ y1) (h12 : y1 ≤ y2)
    (h2 : y2 < le) (h3 : rs ≤ re) (h4 : re ≤ plen) :
    opMap plen ls le rs re y1 ≤ opMap plen ls le rs re y2 := by
  have hlt : ls < le := by omega
  have hden : (0 : ℚ) < (le : ℚ) - (ls : ℚ) := by
    have : ((ls : ℚ)) < (le : ℚ) := by exact_mod_cast hlt
    linarith
  have hre : (0 : ℚ) ≤ (re : ℚ) - (rs : ℚ) := by
    have : ((rs : ℚ)) ≤ (re : ℚ) := by exact_mod_cast h3
    linarith
  have hyy : ((y1 : ℚ)) ≤ (y2 : ℚ) := by exact_mod_cast h12
  have hfr : ((y1 : ℚ) - (ls : ℚ)) / ((le : ℚ) - (ls : ℚ)) ≤
      ((y2 : ℚ) - (ls : ℚ)) / ((le : ℚ) - (ls : ℚ)) := by
    have hnum : ((y1 : ℚ) - (ls : ℚ)) ≤ ((y2 : ℚ) - (ls : ℚ)) := by linarith
    rw [div_eq_mul_inv, div_eq_mul_inv]
    exact mul_le_mul_of_nonneg_right hnum (inv_nonneg.mpr (le_of_lt hden))
  have hv : (rs : ℚ) + ((y1 : ℚ) - (ls : ℚ)) / ((le : ℚ) - (ls : ℚ)) *
      ((re : ℚ) - (rs : ℚ)) ≤ (rs : ℚ) +
      ((y2 : ℚ) - (ls : ℚ)) / ((le : ℚ) - (ls : ℚ)) * ((re : ℚ) - (rs : ℚ)) := by
    have := mul_le_mul_of_nonneg_right hfr hre
    linarith
  have hmono := roundHalfEven_mono hv
  have hfr1 : ((y2 : ℚ) - (ls : ℚ)) / ((le : ℚ) - (ls : ℚ)) ≤ 1 := by
    rw [div_le_one hden]
    have : ((y2 : ℚ)) ≤ (le : ℚ) := by exact_mod_cast (le_of_lt h2)
    linarith
  have hvhi2 : (rs : ℚ) + ((y2 : ℚ) - (ls : ℚ)) / ((le : ℚ) - (ls : ℚ)) *
      ((re : ℚ) - (rs : ℚ)) ≤ (re : ℚ) := by
    have hm := mul_le_mul_of_nonneg_right hfr1 hre
    linarith
  have hrhi2 : roundHalfEven ((rs : ℚ) +
      ((y2 : ℚ) - (ls : ℚ)) / ((le : ℚ) - (ls : ℚ)) * ((re : ℚ) - (rs : ℚ))) ≤
      (re : ℤ) := by
    refine roundHalfEven_le_int ?_
    exact_mod_cast hvhi2
  have hreplen : (re : ℤ) ≤ (plen : ℤ) := by exact_mod_cast h4
  simp only [opMap]
  split_ifs <;> omega

theorem opMap_equal {plen ls le rs re y : Nat} (h1 : ls ≤ y) (h2 : y < le)
    (hsz : le - ls = re - rs) (h3 : rs ≤ re) (h4 : re ≤ plen) :
    opMap plen ls le rs re y = (rs : ℤ) + (y : ℤ) - (ls : ℤ) := by
  have hlt : ls < le := by omega
  have hden : (0 : ℚ) < (le : ℚ) - (ls : ℚ) := by
    have : ((ls : ℚ)) < (le : ℚ) := by exact_mod_cast hlt
    linarith
  have hc1 : ((re : ℚ) - (rs : ℚ)) = ((re - rs : ℕ) : ℚ) := by
    rw [Nat.cast_sub h3]
  have hc2 : ((le : ℚ) - (ls : ℚ)) = ((le - ls : ℕ) : ℚ) := by
    rw [Nat.cast_sub (le_of_lt hlt)]
  have hcast : (re : ℚ) - (rs : ℚ) = (le : ℚ) - (ls : ℚ) := by
    rw [hc1, hc2, hsz]
  have hval : (rs : ℚ) + ((y : ℚ) - (ls : ℚ)) / ((le : ℚ) - (ls : ℚ)) *
      ((re : ℚ) - (rs : ℚ)) = ((((rs : ℤ) + (y : ℤ) - (ls : ℤ) : ℤ)) : ℚ) := by
    rw [hcast, div_mul_cancel₀]
    · push_cast
      ring
    · linarith
  simp only [opMap]
  rw [hval, roundHalfEven_intCast]
  have hne : (rs : ℤ) + (y : ℤ) - (ls : ℤ) ≠ (plen : ℤ) := by omega
  rw [if_neg hne]

/-! ### The swapped direction (active editor on the right) -/

/-- Coordinate swap of one opcode (with the tag adjusted so that tag-specific
validity is preserved; `_equivalent_line` never reads the tag). -/
def swapTag : Tag → Tag
  | Tag.equal => Tag.equal
  | Tag.replace => Tag.replace
  | Tag.delete => Tag.insert
  | Tag.insert => Tag.delete

def opSwap (op : Opcode) : Opcode := ⟨swapTag op.tag, op.r1, op.r2, op.l1, op.l2⟩

theorem matchAt_symm {a b : List α} {i j k : Nat} (h : matchAt a b i j k) :
    matchAt b a j i k := by
  intro t ht
  obtain ⟨x, h1, h2⟩ := h t ht
  exact ⟨x, h2, h1⟩

theorem opsChain_swap {a b : List α} {i j : Nat} {ops : List Opcode}
    (h : OpsChain a b i j ops) : OpsChain b a j i (ops.map opSwap) := by
  induction h with
  | nil => exact OpsChain.nil
  | cons i j op rest h1 h2 h3 h4 h5 h6 h7 h8 ih =>
    rw [List.map_cons]
    refine OpsChain.cons j i (opSwap op) _ h2 h1 h4 h3 h6 h5 ?_ ih
    unfold OpcodeOK at h7 ⊢
    rcases htag : op.tag with - | - | - | - <;> rw [htag] at h7 <;>
      simp only [opSwap, htag, swapTag]
    · have h7e : op.l2 - op.l1 = op.r2 - op.r1 ∧ op.l1 < op.l2 ∧
          matchAt a b op.l1 op.r1 (op.l2 - op.l1) := h7
      obtain ⟨hs, hlt, hm⟩ := h7e
      refine ⟨by omega, by omega, ?_⟩
      have hm2 := matchAt_symm hm
      rwa [hs] at hm2
    · have h7e : op.l1 < op.l2 ∧ op.r1 < op.r2 := h7
      exact ⟨h7e.2, h7e.1⟩
    · have h7e : op.l1 < op.l2 ∧ op.r1 = op.r2 := h7
      exact ⟨h7e.2, h7e.1⟩
    · have h7e : op.l1 = op.l2 ∧ op.r1 < op.r2 := h7
      exact ⟨h7e.2, h7e.1⟩

theorem equivalentLine_swap (plen : Nat) : ∀ (ops : List Opcode) (y : Nat),
    equivalentLine true plen ops y =
    equivalentLine false plen (ops.map opSwap) y := by
  intro ops
  induction ops with
  | nil => intro y; rfl
  | cons op rest ih =>
    intro y
    rw [List.map_cons]
    show (if op.r1 ≤ y ∧ y < op.r2 then opMap plen op.r1 op.r2 op.l1 op.l2 y
      else equivalentLine true plen rest y) =
      (if op.r1 ≤ y ∧ y < op.r2 then opMap plen op.r1 op.r2 op.l1 op.l2 y
      else equivalentLine false plen (rest.map opSwap) y)
    by_cases hc : op.r1 ≤ y ∧ y < op.r2
    · rw [if_pos hc, if_pos hc]
    · rw [if_neg hc, if_neg hc]
      exact ih y

theorem opsChain_mem_ok {a b : List α} {i j : Nat} {ops : List Opcode}
    (h : OpsChain a b i j ops) : ∀ op ∈ ops, OpcodeOK a b op := by
  induction h with
  | nil => intro op hop; exact absurd hop (List.not_mem_nil op)
  | cons i j op rest h1 h2 h3 h4 h5 h6 h7 h8 ih =>
    intro op2 hop2
    rcases List.mem_cons.mp hop2 with heq | hmem
    · subst heq; exact h7
    · exact ih op2 hmem

theorem eqLine_bounds_of_chain {a b : List α} {ops : List Opcode}
    (h : OpsChain a b 0 0 ops) {y : Nat} (hy : y < a.length)
    (hp : 1 ≤ b.length) :
    0 ≤ equivalentLine false b.length ops y ∧
    equivalentLine false b.length ops y < (b.length : ℤ) := by
  obtain ⟨op, hm, hb1, hb2⟩ := opsChain_cover_left h y (Nat.zero_le y) hy
  have hbd := opsChain_mem_bounds h op hm
  rw [equivalentLine_eval h hm hb1 hb2]
  exact opMap_bounds hb1 hb2 (by omega) (by omega) hp

theorem eqLine_mono_of_chain {a b : List α} {ops : List Opcode}
    (h : OpsChain a b 0 0 ops) {op : Opcode} (hm : op ∈ ops)
    {y1 y2 : Nat} (h1 : op.l1 ≤ y1) (h12 : y1 ≤ y2) (h2 : y2 < op.l2) :
    equivalentLine false b.length ops y1 ≤ equivalentLine false b.length ops y2 := by
  have hbd := opsChain_mem_bounds h op hm
  rw [equivalentLine_eval h hm h1 (by omega), equivalentLine_eval h hm (by omega) h2]
  exact opMap_mono h1 h12 h2 (by omega) (by omega)

theorem eqLine_equal_of_chain {a b : List α} {ops : List Opcode}
    (h : OpsChain a b 0 0 ops) {op : Opcode} (hm : op ∈ ops)
    (htag : op.tag = Tag.equal) {y : Nat} (h1 : op.l1 ≤ y) (h2 : y < op.l2) :
    equivalentLine false b.length ops y = (op.r1 : ℤ) + (y : ℤ) - (op.l1 : ℤ) := by
  have hbd := opsChain_mem_bounds h op hm
  have hok := opsChain_mem_ok h op hm
  unfold OpcodeOK at hok
  rw [htag] at hok
  have hoke : op.l2 - op.l1 = op.r2 - op.r1 ∧ op.l1 < op.l2 ∧
      matchAt a b op.l1 op.r1 (op.l2 - op.l1) := hok
  rw [equivalentLine_eval h hm h1 h2]
  exact opMap_equal h1 h2 hoke.1 (by omega) (by omega)

/-- **C4.** For every line index `y` of the active buffer,
`_equivalent_line` never divides by zero (a zero-length from-range never
contains `y`), and its result `r` satisfies `0 ≤ r < len(passive buffer)`
(it is decremented by one exactly when `other_y` would equal the passive
line count; a text buffer always has at least one line, whence the
`1 ≤ passiveLen` hypothesis). -/
theorem equivalent_line_in_bounds (a b : List α) (act : Bool) (y : Nat)
    (hy : y < (if act then b else a).length)
    (hp : 1 ≤ (if act then a else b).length) :
    (∀ op ∈ getOpcodes a b, (opSides act op).1 ≤ y → y < (opSides act op).2.1 →
      (opSides act op).1 < (opSides act op).2.1) ∧
    0 ≤ equivalentLine act (if act then a else b).length (getOpcodes a b) y ∧
    equivalentLine act (if act then a else b).length (getOpcodes a b) y <
      ((if act then a else b).length : ℤ) := by
  refine ⟨fun op _ hle hlt => by omega, ?_⟩
  cases act with
  | false =>
    have hy2 : y < a.length := by simpa using hy
    have hp2 : 1 ≤ b.length := by simpa using hp
    have h := eqLine_bounds_of_chain (getOpcodes_chain a b) hy2 hp2
    constructor
    · simpa using h.1
    · simpa using h.2
  | true =>
    have hy2 : y < b.length := by simpa using hy
    have hp2 : 1 ≤ a.length := by simpa using hp
    have h := eqLine_bounds_of_chain (opsChain_swap (getOpcodes_chain a b)) hy2 hp2
    constructor
    · simpa [equivalentLine_swap] using h.1
    · simpa [equivalentLine_swap] using h.2

/-- Witness for C4 at a concrete input. -/
theorem equivalent_line_in_bounds_witness :
    ((0 : Nat) < (if false then [1] else [0] : List Nat).length ∧
      1 ≤ (if false then [0] else [1] : List Nat).length) ∧
    ((∀ op ∈ getOpcodes [0] [(1 : Nat)], (opSides false op).1 ≤ 0 →
        0 < (opSides false op).2.1 → (opSides false op).1 < (opSides false op).2.1) ∧
      0 ≤ equivalentLine false (if false then [0] else [1] : List Nat).length
        (getOpcodes [0] [1]) 0 ∧
      equivalentLine false (if false then [0] else [1] : List Nat).length
        (getOpcodes [0] [1]) 0 <
        ((if false then [0] else [1] : List Nat).length : ℤ)) :=
  ⟨⟨by decide, by decide⟩,
    equivalent_line_in_bounds [0] [1] false 0 (by decide) (by decide)⟩

/-- **C5.** For every opcode of the diff, `_equivalent_line` is monotone
non-decreasing in `y` over that opcode's from-side range, and on an `equal`
opcode it is the identity offset from the range start (so the image of the
`equal` from-range is exactly the corresponding `equal` range on the other
side). -/
theorem equivalent_line_monotone_and_equal_identity (a b : List α) (act : Bool)
    (op : Opcode) (hop : op ∈ getOpcodes a b) :
    (∀ y1 y2, (opSides act op).1 ≤ y1 → y1 ≤ y2 → y2 < (opSides act op).2.1 →
      equivalentLine act (if act then a else b).length (getOpcodes a b) y1 ≤
      equivalentLine act (if act then a else b).length (getOpcodes a b) y2) ∧
    (op.tag = Tag.equal → ∀ y, (opSides act op).1 ≤ y → y < (opSides act op).2.1 →
      equivalentLine act (if act then a else b).length (getOpcodes a b) y =
        ((opSides act op).2.2.1 : ℤ) + (y : ℤ) - ((opSides act op).1 : ℤ)) := by
  cases act with
  | false =>
    constructor
    · intro y1 y2 h1 h12 h2
      exact eqLine_mono_of_chain (getOpcodes_chain a b) hop h1 h12 h2
    · intro htag y h1 h2
      exact eqLine_equal_of_chain (getOpcodes_chain a b) hop htag h1 h2
  | true =>
    have hmem : opSwap op ∈ (getOpcodes a b).map opSwap :=
      List.mem_map_of_mem opSwap hop
    have hch := opsChain_swap (getOpcodes_chain a b)
    constructor
    · intro y1 y2 h1 h12 h2
      rw [equivalentLine_swap, equivalentLine_swap]
      exact eqLine_mono_of_chain hch hmem h1 h12 h2
    · intro htag y h1 h2
      rw [equivalentLine_swap]
      have htag2 : (opSwap op).tag = Tag.equal := by
        simp only [opSwap, htag, swapTag]
      exact eqLine_equal_of_chain hch hmem htag2 h1 h2

/-- Witness for C5 at a concrete input: the `replace` opcode of the diff of
`[0, 1, 2]` and `[0, 9, 2]`, and the `equal` opcode of the same diff. -/
theorem equivalent_line_monotone_witness :
    ((⟨Tag.equal, 0, 1, 0, 1⟩ : Opcode) ∈ getOpcodes [0, 1, 2] [(0 : Nat), 9, 2] ∧
      (⟨Tag.equal, 0, 1, 0, 1⟩ : Opcode).tag = Tag.equal ∧
      (opSides false (⟨Tag.equal, 0, 1, 0, 1⟩ : Opcode)).1 ≤ 0 ∧ (0 : Nat) ≤ 0 ∧
      0 < (opSides false (⟨Tag.equal, 0, 1, 0, 1⟩ : Opcode)).2.1) ∧
    (equivalentLine false (if false then [0, 1, 2] else [0, 9, 2] : List Nat).length
        (getOpcodes [0, 1, 2] [0, 9, 2]) 0 ≤
      equivalentLine false (if false then [0, 1, 2] else [0, 9, 2] : List Nat).length
        (getOpcodes [0, 1, 2] [0, 9, 2]) 0) ∧
    (equivalentLine false (if false then [0, 1, 2] else [0, 9, 2] : List Nat).length
        (getOpcodes [0, 1, 2] [0, 9, 2]) 0 =
      ((opSides false (⟨Tag.equal, 0, 1, 0, 1⟩ : Opcode)).2.2.1 : ℤ) + (0 : ℤ) -
        ((opSides false (⟨Tag.equal, 0, 1, 0, 1⟩ : Opcode)).1 : ℤ)) :=
  ⟨⟨by decide, rfl, by decide, le_refl 0, by decide⟩,
    (equivalent_line_monotone_and_equal_identity [0, 1, 2] [0, 9, 2] false
      ⟨Tag.equal, 0, 1, 0, 1⟩ (by decide)).1 0 0 (by decide) (le_refl 0) (by decide),
    (equivalent_line_monotone_and_equal_identity [0, 1, 2] [0, 9, 2] false
      ⟨Tag.equal, 0, 1, 0, 1⟩ (by decide)).2 rfl 0 (by decide) (by decide)⟩

/-- The sentinel line `follow_scroll` maps across: the active editor's scroll
offset plus half the viewport height (`y + middle_y` with
`middle_y = last_height // 2`). -/
def followScrollSentinel (scrollY height : Nat) : Nat := scrollY + height / 2

/-- **C10.** For every `y` not contained in the from-side range of any opcode
of the diff — in particular every `y ≥ len(active buffer)`, as produced by
`follow_scroll`'s sentinel — `_equivalent_line` falls through its loop and
returns `y` unchanged (so the result may equal or exceed the passive buffer's
line count). -/
theorem equivalent_line_identity_outside (a b : List α) (act : Bool) :
    (∀ y, (∀ op ∈ getOpcodes a b,
        ¬((opSides act op).1 ≤ y ∧ y < (opSides act op).2.1)) →
      equivalentLine act (if act then a else b).length (getOpcodes a b) y = (y : ℤ)) ∧
    (∀ y, (if act then b else a).length ≤ y →
      equivalentLine act (if act then a else b).length (getOpcodes a b) y = (y : ℤ)) ∧
    (∀ scrollY height, (if act then b else a).length ≤ followScrollSentinel scrollY height →
      equivalentLine act (if act then a else b).length (getOpcodes a b)
        (followScrollSentinel scrollY height) = (followScrollSentinel scrollY height : ℤ)) := by
  have hbig : ∀ y, (if act then b else a).length ≤ y →
      equivalentLine act (if act then a else b).length (getOpcodes a b) y = (y : ℤ) := by
    intro y hy
    refine equivalentLine_not_covered act _ (getOpcodes a b) y ?_
    intro op hop
    have hbd := opsChain_mem_bounds (getOpcodes_chain a b) op hop
    cases act with
    | false =>
      have hy2 : a.length ≤ y := by simpa using hy
      show ¬(op.l1 ≤ y ∧ y < op.l2)
      omega
    | true =>
      have hy2 : b.length ≤ y := by simpa using hy
      show ¬(op.r1 ≤ y ∧ y < op.r2)
      omega
  refine ⟨?_, hbig, ?_⟩
  · intro y hno
    exact equivalentLine_not_covered act _ (getOpcodes a b) y hno
  · intro scrollY height h
    exact hbig (followScrollSentinel scrollY height) h

/-- Witness for C10 at a concrete input. -/
theorem equivalent_line_identity_outside_witness :
    ((∀ op ∈ getOpcodes [0] [(0 : Nat)],
        ¬((opSides false op).1 ≤ 5 ∧ 5 < (opSides false op).2.1)) ∧
      (if false then [(0 : Nat)] else [0] : List Nat).length ≤ 7 ∧
      (if false then [(0 : Nat)] else [0] : List Nat).length ≤
        followScrollSentinel 3 9) ∧
    equivalentLine false (if false then [0] else [0] : List Nat).length
      (getOpcodes [0] [(0 : Nat)]) 5 = (5 : ℤ) ∧
    equivalentLine false (if false then [0] else [0] : List Nat).length
      (getOpcodes [0] [(0 : Nat)]) 7 = (7 : ℤ) ∧
    equivalentLine false (if false then [0] else [0] : List Nat).length
      (getOpcodes [0] [(0 : Nat)]) (followScrollSentinel 3 9) =
      (followScrollSentinel 3 9 : ℤ) :=
  ⟨⟨by decide, by decide, by decide⟩,
    (equivalent_line_identity_outside [0] [0] false).1 5 (by decide),
    (equivalent_line_identity_outside [0] [0] false).2.1 7 (by decide),
    (equivalent_line_identity_outside [0] [0] false).2.2 3 9 (by decide)⟩

/-! ## The coordinate mapper: `expand_str` / `expand_str_inverse` / `screen_x`

`expand_str_inverse` (editor.py) builds, per character, a run of length
`8 - len(result) % 8` for a tab and `cwcwidth.wcwidth(char)` otherwise, each
run holding the character's model index.  `screen_x(x, y)` is
`len(expand_str(line[:x]))`; `expand_str` delegates tab expansion to
`termstr.TermStr` (external library), whose layout matches the repository's
own `expandtabs`: a tab jumps to the next multiple-of-8 stop and every other
character occupies its terminal width.  The character-width oracle
`w : Char → Nat` stands for `cwcwidth.wcwidth`. -/

/-- Screen width of character `c` placed at screen column `col`. -/
def runLen (w : Char → Nat) (c : Char) (col : Nat) : Nat :=
  if c = '\t' then 8 - col % 8 else w c

/-- The screen column reached after laying out `cs` starting at column
`col`. -/
def expLenAux (w : Char → Nat) : Nat → List Char → Nat
  | col, [] => col
  | col, c :: cs => expLenAux w (col + runLen w c col) cs

/-- `TextEditor.screen_x(x, y)` = `len(expand_str(line[:x]))`: the screen
column of model column `x` of `line`. -/
def screenXOf (w : Char → Nat) (line : List Char) (x : Nat) : Nat :=
  expLenAux w 0 (line.take x)

/-- The loop of `expand_str_inverse`: `result.extend([index] * run_length)`
for each character. -/
def expandInvAux (w : Char → Nat) : Nat → List Nat → List Char → List Nat
  | _, acc, [] => acc
  | idx, acc, c :: cs =>
    expandInvAux w (idx + 1) (acc ++ List.replicate (runLen w c acc.length) idx) cs

/-- `expand_str_inverse(line)`: maps each screen column to the model index of
the character covering it. -/
def expandStrInverse (w : Char → Nat) (line : List Char) : List Nat :=
  expandInvAux w 0 [] line

/-- `TextEditor.model_x(x, y)` = `expand_str_inverse(line)[x]`; indexing past
the end of the table raises `IndexError`, rendered as `none`. -/
def modelXOf (w : Char → Nat) (line : List Char) (sx : Nat) : Option Nat :=
  (expandStrInverse w line).get? sx

theorem expandInvAux_prefix (w : Char → Nat) :
    ∀ (cs : List Char) (idx : Nat) (acc : List Nat),
    acc <+: expandInvAux w idx acc cs := by
  intro cs
  induction cs with
  | nil => intro idx acc; exact List.prefix_refl acc
  | cons c cs2 ih =>
    intro idx acc
    rw [expandInvAux]
    exact List.IsPrefix.trans (List.prefix_append acc _) (ih (idx + 1) _)

theorem expandInv_get (w : Char → Nat) :
    ∀ (cs : List Char) (idx : Nat) (acc : List Nat) (x : Nat),
    x < cs.length → (∀ c ∈ cs, c ≠ '\t' → w c = 1) →
    (expandInvAux w idx acc cs).get? (expLenAux w acc.length (cs.take x)) =
      some (idx + x) := by
  intro cs
  induction cs with
  | nil => intro idx acc x hx _; exact absurd hx (by simp)
  | cons c cs2 ih =>
    intro idx acc x hx hw
    have hr : 1 ≤ runLen w c acc.length := by
      unfold runLen
      by_cases hc : c = '\t'
      · rw [if_pos hc]
        have := Nat.mod_lt acc.length (show 0 < 8 by omega)
        omega
      · rw [if_neg hc]
        rw [hw c (List.mem_cons_self c cs2) hc]
    rcases x with - | x2
    · rw [List.take_zero]
      rw [show expLenAux w acc.length [] = acc.length from rfl]
      rw [expandInvAux]
      have hpre := expandInvAux_prefix w cs2 (idx + 1)
        (acc ++ List.replicate (runLen w c acc.length) idx)
      obtain ⟨t, ht⟩ := hpre
      rw [← ht]
      rw [List.get?_eq_getElem?]
      rw [List.getElem?_append]
      rw [if_pos (by rw [List.length_append, List.length_replicate]; omega)]
      rw [List.getElem?_append_right (le_refl acc.length)]
      rw [Nat.sub_self]
      rw [List.getElem?_replicate]
      rw [if_pos (by omega)]
      rw [Nat.add_zero]
    · rw [show (c :: cs2).take (x2 + 1) = c :: cs2.take x2 from rfl]
      rw [show expLenAux w acc.length (c :: cs2.take x2) =
        expLenAux w (acc.length + runLen w c acc.length) (cs2.take x2) from rfl]
      rw [expandInvAux]
      have hlen : (acc ++ List.replicate (runLen w c acc.length) idx).length =
          acc.length + runLen w c acc.length := by
        rw [List.length_append, List.length_replicate]
      have := ih (idx + 1) (acc ++ List.replicate (runLen w c acc.length) idx) x2
        (by simpa using hx)
        (fun c2 hc2 => hw c2 (List.mem_cons_of_mem c hc2))
      rw [hlen] at this
      rw [this]
      rw [show idx + 1 + x2 = idx + (x2 + 1) by omega]

/-- **C7.** For every line without wide characters (every non-tab character
has terminal width 1) and every model column `x` of that line, converting to
a screen column and back is the identity:
`model_x(screen_x(x, y), y) == x`, tabs included. -/
theorem model_screen_roundtrip (w : Char → Nat) (line : List Char) (x : Nat)
    (hw : ∀ c ∈ line, c ≠ '\t' → w c = 1) (hx : x < line.length) :
    modelXOf w line (screenXOf w line x) = some x := by
  have h := expandInv_get w line 0 [] x hx hw
  rw [show ([] : List Nat).length = 0 from rfl] at h
  rw [show (0 : Nat) + x = x by omega] at h
  exact h

/-- Witness for C7 at a concrete input (a line containing a tab). -/
theorem model_screen_roundtrip_witness :
    ((∀ c ∈ ['a', '\t', 'b'], c ≠ '\t' → (fun _ => 1 : Char → Nat) c = 1) ∧
      2 < (['a', '\t', 'b'] : List Char).length) ∧
    modelXOf (fun _ => 1) ['a', '\t', 'b']
      (screenXOf (fun _ => 1) ['a', '\t', 'b'] 2) = some 2 :=
  ⟨⟨by decide, by decide⟩,
    model_screen_roundtrip (fun _ => 1) ['a', '\t', 'b'] 2 (by decide) (by decide)⟩

/-! ## The `TextEditor` state machine

The state covered by the claims: the `Text` buffer (`lines` plus its
monotone `version` counter; both `__setitem__` branches bump `version` by
one), the raw cursor fields `_cursor_x` (a screen column) and `_cursor_y`,
the selection `mark`, and the history with its position.  Scroll state,
clipboard, themes, `previous_term_code` and the cached maximum line width
(whose invalidation changes neither `lines` nor `version`) are read by none
of the claims and are omitted.  A line is a list of characters.

An operation that can raise `IndexError` returns `EState × Bool`; the `Bool`
is `true` when the exception escaped, and the state is whatever the operation
had already mutated (Python does not roll back).  The editor maintains
`cursor_y < len(lines)`, so the source's raising accesses
`self.text_widget.lines[self.cursor_y]` are rendered with `getD`. -/

/-- One history entry: a full copy of the buffer's lines plus the raw cursor
`(_cursor_x, _cursor_y)`. -/
abbrev HEntry := List (List Char) × Nat × Nat

structure EState where
  lines : List (List Char)
  version : Nat
  cursorX : Nat
  cursorY : Nat
  mark : Option (Nat × Nat)
  history : List HEntry
  historyPosition : Nat
deriving DecidableEq

/-- `self.text_widget[self.cursor_y]`. -/
def currentLine (s : EState) : List Char := s.lines.getD s.cursorY []

/-- The `cursor_x` property getter: `model_x(_cursor_x, cursor_y)`, falling
back to the line length when the table lookup raises `IndexError`. -/
def cursorXVal (w : Char → Nat) (s : EState) : Nat :=
  match modelXOf w (currentLine s) s.cursorX with
  | some m => m
  | none => (currentLine s).length

/-- The `cursor_x` property setter: `self._cursor_x = self.screen_x(x,
self.cursor_y)` (its `except IndexError` never fires with `cursor_y` in
range). -/
def setCursorX (w : Char → Nat) (s : EState) (x : Nat) : EState :=
  {s with cursorX := screenXOf w (currentLine s) x}

/-- The `cursor_y` property setter: raises `IndexError` when the new `y` is
negative or at/past the line count; the raise happens before the assignment,
so the state is returned unchanged with the raised flag set. -/
def setCursorY (s : EState) (y : ℤ) : EState × Bool :=
  if y < 0 ∨ (s.lines.length : ℤ) ≤ y then (s, true)
  else ({s with cursorY := y.toNat}, false)

/-- `TextEditor.cursor_up`: `self.cursor_y -= 1`. -/
def cursorUp (s : EState) : EState × Bool := setCursorY s ((s.cursorY : ℤ) - 1)

/-- `TextEditor.cursor_down`: `self.cursor_y += 1`. -/
def cursorDown (s : EState) : EState × Bool := setCursorY s ((s.cursorY : ℤ) + 1)

/-- `TextEditor.jump_to_start_of_line`: `self.cursor_x = 0`. -/
def jumpToStartOfLine (w : Char → Nat) (s : EState) : EState := setCursorX w s 0

/-- `TextEditor._current_character`: the character under the cursor, `"\n"`
when the index is past the end of the line (the `except IndexError`
branch). -/
def currentChar (w : Char → Nat) (s : EState) : Char :=
  ((currentLine s).get? (cursorXVal w s)).getD '\n'

/-- `TextEditor.cursor_right`: at the end of the line, `cursor_down()` (which
may raise) then `jump_to_start_of_line()`; otherwise `cursor_x += 1`. -/
def cursorRight (w : Char → Nat) (s : EState) : EState × Bool :=
  if cursorXVal w s = (currentLine s).length then
    let p := cursorDown s
    if p.2 then (p.1, true) else (jumpToStartOfLine w p.1, false)
  else (setCursorX w s (cursorXVal w s + 1), false)

/-- `string.ascii_letters + string.digits`. -/
def isWordChar (c : Char) : Bool :=
  decide (('a' ≤ c ∧ c ≤ 'z') ∨ ('A' ≤ c ∧ c ≤ 'Z') ∨ ('0' ≤ c ∧ c ≤ '9'))

/-- Fuel bound for the `next_word` loops: the total character count of the
buffer (one newline per line) plus one.  Each successful `cursor_right`
strictly advances the cursor towards the end of the buffer, so the source's
unbounded loops iterate fewer times than this and the fuel never truncates
them. -/
def totalChars (s : EState) : Nat :=
  s.lines.foldr (fun l acc => l.length + 1 + acc) 0

/-- First loop of `next_word`: `while current not in WORD_CHARS:
cursor_right()`. -/
def nwSkip (w : Char → Nat) : Nat → EState → EState × Bool
  | 0, s => (s, false)
  | fuel + 1, s =>
    if isWordChar (currentChar w s) then (s, false)
    else
      let p := cursorRight w s
      if p.2 then (p.1, true) else nwSkip w fuel p.1

/-- Second loop of `next_word`: `while current in WORD_CHARS:
cursor_right()`. -/
def nwScan (w : Char → Nat) : Nat → EState → EState × Bool
  | 0, s => (s, false)
  | fuel + 1, s =>
    if isWordChar (currentChar w s) then
      let p := cursorRight w s
      if p.2 then (p.1, true) else nwScan w fuel p.1
    else (s, false)

/-- `TextEditor.next_word`: skip non-word characters, then word characters,
via `cursor_right`; an `IndexError` escaping `cursor_right` aborts the walk
with the cursor wherever it had already moved. -/
def nextWord (w : Char → Nat) (s : EState) : EState × Bool :=
  let p := nwSkip w (totalChars s + 1) s
  if p.2 then (p.1, true) else nwScan w (totalChars p.1 + 1) p.1

/-- `TextEditor.insert_text(text, is_overwriting)`: splice the text into the
cursor line (`text_widget.append(text)` in the `except IndexError` branch),
one `version` bump, then `self.cursor_x += len(text)` through the property
getter/setter pair. -/
def insertText (w : Char → Nat) (text : List Char) (isOver : Bool)
    (s : EState) : EState :=
  let s1 := match s.lines.get? s.cursorY with
    | some cur =>
      let x := cursorXVal w s
      let rc := if isOver then text.length else 0
      {s with
        lines := s.lines.set s.cursorY (cur.take x ++ text ++ cur.drop (x + rc))
        version := s.version + 1}
    | none => {s with lines := s.lines ++ [text], version := s.version + 1}
  setCursorX w s1 (cursorXVal w s1 + text.length)

/-- `TextEditor.add_to_history(state=None)`: when `position < len(history)`,
first extend the history with `reversed(history[position:-1])`
(`history[position:-1]` is the run from the position up to, but excluding,
the last entry), then append the entry and move the position to the new
end. -/
def addToHistory (s : EState) (st : Option HEntry) : EState :=
  let entry : HEntry := match st with
    | none => (s.lines, s.cursorX, s.cursorY)
    | some e => e
  let hist1 := if s.historyPosition < s.history.length
    then s.history ++ ((s.history.drop s.historyPosition).dropLast).reverse
    else s.history
  {s with
    history := hist1 ++ [entry]
    historyPosition := (hist1 ++ [entry]).length}

/-- `TextEditor.undo`: at position 0 ring the bell (the returned flag) and
return; at the end of the history first snapshot the current state (keeping
redo reachable) and step back over it; then restore the entry at the
decremented position — replacing the whole buffer (`text_widget[:] = lines`)
is one more `version` bump — and drop the mark.  The `get?` of the restore
is always `some` on the source's reachable states; the `none` branch is
unreachable filler. -/
def undo (s : EState) : EState × Bool :=
  if s.historyPosition = 0 then (s, true)
  else
    let s1 := if s.historyPosition = s.history.length
      then
        let s2 := addToHistory s none
        {s2 with historyPosition := s2.historyPosition - 1}
      else s
    let s2 := {s1 with historyPosition := s1.historyPosition - 1}
    match s2.history.get? s2.historyPosition with
    | some e => ({s2 with
        lines := e.1
        cursorX := e.2.1
        cursorY := e.2.2
        version := s2.version + 1
        mark := none}, false)
    | none => (s2, false)

/-- The edit/history protocol of `TextEditor.on_keyboard_input` around one
dispatched action: capture the pre-edit lines and raw cursor, run the action
(an escaping `IndexError` is caught with `ring_bell`, reported in the
returned flag), and when the buffer version changed and the action is not
`undo` itself, push the captured pre-edit state onto the history and drop
the mark.  `previous_term_code`, `follow_cursor` and the appearance event
touch no state read by the claims and are omitted. -/
def onKeyboardAction (act : EState → EState × Bool) (isUndoAction : Bool)
    (s0 : EState) : EState × Bool :=
  let p := act s0
  if p.1.version ≠ s0.version ∧ isUndoAction = false then
    ({addToHistory p.1 (some (s0.lines, s0.cursorX, s0.cursorY)) with
      mark := none}, p.2)
  else p

/-! ## Claim C2: undo after one mutating edit -/

/-- `undo` on a state whose position sits at the end of a non-empty history
restores exactly the last history entry (lines and raw cursor). -/
theorem undo_at_end (t : EState) (e : HEntry)
    (hp : t.historyPosition = t.history.length) (h0 : t.history ≠ [])
    (hlast : t.history.get? (t.history.length - 1) = some e) :
    (undo t).1.lines = e.1 ∧ (undo t).1.cursorX = e.2.1 ∧
    (undo t).1.cursorY = e.2.2 := by
  have hlen0 : t.history.length ≠ 0 := by
    intro hc
    exact h0 (List.length_eq_zero.mp hc)
  have hadd : addToHistory t none =
      {t with
        history := t.history ++ [(t.lines, t.cursorX, t.cursorY)]
        historyPosition := (t.history ++ [(t.lines, t.cursorX, t.cursorY)]).length} := by
    simp only [addToHistory]
    rw [if_neg (by omega)]
  have hget : (t.history ++ [(t.lines, t.cursorX, t.cursorY)]).get?
      ((t.history ++ [(t.lines, t.cursorX, t.cursorY)]).length - 1 - 1) = some e := by
    have hidx : (t.history ++ [(t.lines, t.cursorX, t.cursorY)]).length - 1 - 1 =
        t.history.length - 1 := by
      rw [List.length_append]
      simp
    rw [hidx, List.get?_eq_getElem?]
    rw [List.getElem?_append]
    rw [if_pos (by omega)]
    rw [← List.get?_eq_getElem?]
    exact hlast
  rw [undo]
  rw [if_neg (by omega)]
  rw [if_pos hp]
  rw [hadd]
  dsimp only
  rw [hget]
  exact ⟨rfl, rfl, rfl⟩

theorem get_last_append {β : Type} (l : List β) (e : β) :
    (l ++ [e]).get? ((l ++ [e]).length - 1) = some e := by
  rw [List.length_append]
  rw [show l.length + [e].length - 1 = l.length by simp]
  rw [List.get?_eq_getElem?]
  exact List.getElem?_concat_length l e

/-- `undo` right after a state was pushed at the end of the history restores
exactly the pushed lines and raw cursor, whatever the rest of the state. -/
theorem undo_of_pushed (s : EState) (e : HEntry) :
    (undo {addToHistory s (some e) with mark := none}).1.lines = e.1 ∧
    (undo {addToHistory s (some e) with mark := none}).1.cursorX = e.2.1 ∧
    (undo {addToHistory s (some e) with mark := none}).1.cursorY = e.2.2 := by
  refine undo_at_end _ e ?_ ?_ ?_
  · dsimp only [addToHistory]
  · dsimp only [addToHistory]
    intro hc
    have hl := congrArg List.length hc
    rw [List.length_append] at hl
    simp at hl
  · dsimp only [addToHistory]
    exact get_last_append _ e

/-- **C2.** For every editor state, after any single mutating edit processed
by `on_keyboard_input` — one that changes the buffer's `version` — calling
`undo()` restores the buffer's line sequence and the cursor `(x, y)` exactly
to their values immediately before that edit. -/
theorem undo_after_edit_restores (act : EState → EState × Bool) (s0 : EState)
    (hver : (act s0).1.version ≠ s0.version) :
    (undo (onKeyboardAction act false s0).1).1.lines = s0.lines ∧
    (undo (onKeyboardAction act false s0).1).1.cursorX = s0.cursorX ∧
    (undo (onKeyboardAction act false s0).1).1.cursorY = s0.cursorY := by
  have hon : (onKeyboardAction act false s0).1 =
      {addToHistory (act s0).1 (some (s0.lines, s0.cursorX, s0.cursorY)) with
        mark := none} := by
    simp only [onKeyboardAction]
    rw [if_pos ⟨hver, trivial⟩]
  rw [hon]
  exact undo_of_pushed (act s0).1 (s0.lines, s0.cursorX, s0.cursorY)

/-- Witness for C2: inserting `"b"` into the one-line buffer `["a"]`. -/
theorem undo_after_edit_restores_witness :
    (((fun t => (insertText (fun _ => 1) ['b'] false t, false))
        (⟨[['a']], 0, 0, 0, none, [([['a']], 0, 0)], 1⟩ : EState)).1.version ≠
      (⟨[['a']], 0, 0, 0, none, [([['a']], 0, 0)], 1⟩ : EState).version) ∧
    ((undo (onKeyboardAction (fun t => (insertText (fun _ => 1) ['b'] false t, false))
        false ⟨[['a']], 0, 0, 0, none, [([['a']], 0, 0)], 1⟩).1).1.lines =
      (⟨[['a']], 0, 0, 0, none, [([['a']], 0, 0)], 1⟩ : EState).lines ∧
     (undo (onKeyboardAction (fun t => (insertText (fun _ => 1) ['b'] false t, false))
        false ⟨[['a']], 0, 0, 0, none, [([['a']], 0, 0)], 1⟩).1).1.cursorX =
      (⟨[['a']], 0, 0, 0, none, [([['a']], 0, 0)], 1⟩ : EState).cursorX ∧
     (undo (onKeyboardAction (fun t => (insertText (fun _ => 1) ['b'] false t, false))
        false ⟨[['a']], 0, 0, 0, none, [([['a']], 0, 0)], 1⟩).1).1.cursorY =
      (⟨[['a']], 0, 0, 0, none, [([['a']], 0, 0)], 1⟩ : EState).cursorY) :=
  ⟨by decide,
    undo_after_edit_restores (fun t => (insertText (fun _ => 1) ['b'] false t, false))
      ⟨[['a']], 0, 0, 0, none, [([['a']], 0, 0)], 1⟩ (by decide)⟩

/-! ## Claim C3: what `add_to_history` does after undos

The claim says a new edit performed with the position strictly before the end
"first truncates all history entries beyond the current position and then
appends the new state".  The source truncates nothing: it extends the history
with `reversed(self.history[self.history_position:-1])` and then appends the
new state. -/

/-- **C3 counterexample.** With history `[e0, e1, e2]` and position `1`,
`add_to_history(e3)` yields `[e0, e1, e2, e1, e3]` (length 5, `e2` still
present), not the truncated `[e0, e3]` the claim demands. -/
theorem add_to_history_truncation_refuted :
    (addToHistory ⟨[['x']], 0, 0, 0, none,
        [([['a']], 0, 0), ([['b']], 0, 0), ([['c']], 0, 0)], 1⟩
      (some ([['d']], 0, 0))).history =
      [([['a']], 0, 0), ([['b']], 0, 0), ([['c']], 0, 0), ([['b']], 0, 0),
        ([['d']], 0, 0)] ∧
    ([['c']], 0, 0) ∈ (addToHistory ⟨[['x']], 0, 0, 0, none,
        [([['a']], 0, 0), ([['b']], 0, 0), ([['c']], 0, 0)], 1⟩
      (some ([['d']], 0, 0))).history ∧
    (addToHistory ⟨[['x']], 0, 0, 0, none,
        [([['a']], 0, 0), ([['b']], 0, 0), ([['c']], 0, 0)], 1⟩
      (some ([['d']], 0, 0))).history ≠ [([['a']], 0, 0), ([['d']], 0, 0)] := by
  decide

/-- **C3 amended.** Performing a new edit after undoing does not truncate:
`add_to_history` keeps the whole existing history as a prefix (re-appending
the entries between the position and the last in reverse), appends the new
state at the end, and moves the position past the end — the history stays one
linear sequence in which undone entries are preserved rather than
discarded. -/
theorem add_to_history_appends_never_truncates (s : EState) (e : HEntry) :
    s.history <+: (addToHistory s (some e)).history ∧
    (addToHistory s (some e)).history.getLast? = some e ∧
    (addToHistory s (some e)).historyPosition =
      (addToHistory s (some e)).history.length := by
  refine ⟨?_, ?_, ?_⟩
  · dsimp only [addToHistory]
    by_cases hc : s.historyPosition < s.history.length
    · rw [if_pos hc]
      exact List.IsPrefix.trans (List.prefix_append s.history _)
        (List.prefix_append _ [e])
    · rw [if_neg hc]
      exact List.prefix_append s.history [e]
  · dsimp only [addToHistory]
    exact List.getLast?_concat _
  · dsimp only [addToHistory]

/-! ## Claim C8: out-of-bounds cursor movement -/

/-- `t` differs from `s` at most in the cursor fields. -/
def CursorOnly (s t : EState) : Prop :=
  t.lines = s.lines ∧ t.version = s.version ∧ t.mark = s.mark ∧
  t.history = s.history ∧ t.historyPosition = s.historyPosition

theorem cursorOnly_refl (s : EState) : CursorOnly s s :=
  ⟨rfl, rfl, rfl, rfl, rfl⟩

theorem cursorOnly_trans {s t u : EState} (h1 : CursorOnly s t)
    (h2 : CursorOnly t u) : CursorOnly s u := by
  obtain ⟨a1, a2, a3, a4, a5⟩ := h1
  obtain ⟨b1, b2, b3, b4, b5⟩ := h2
  exact ⟨b1.trans a1, b2.trans a2, b3.trans a3, b4.trans a4, b5.trans a5⟩

theorem cursorOnly_setCursorX (w : Char → Nat) (s : EState) (x : Nat) :
    CursorOnly s (setCursorX w s x) :=
  ⟨rfl, rfl, rfl, rfl, rfl⟩

theorem cursorOnly_setCursorY (s : EState) (y : ℤ) :
    CursorOnly s (setCursorY s y).1 := by
  unfold setCursorY
  split_ifs
  · exact cursorOnly_refl s
  · exact ⟨rfl, rfl, rfl, rfl, rfl⟩

theorem cursorOnly_cursorRight (w : Char → Nat) (s : EState) :
    CursorOnly s (cursorRight w s).1 := by
  unfold cursorRight
  split_ifs
  · have h1 := cursorOnly_setCursorY s ((s.cursorY : ℤ) + 1)
    rcases hdown : cursorDown s with ⟨s2, raised⟩
    rw [show cursorDown s = setCursorY s ((s.cursorY : ℤ) + 1) from rfl] at hdown
    rw [hdown] at h1
    cases raised
    · dsimp only
      exact cursorOnly_trans h1 (cursorOnly_setCursorX w s2 0)
    · dsimp only
      exact h1
  · exact cursorOnly_setCursorX w s _

theorem cursorOnly_nwSkip (w : Char → Nat) :
    ∀ (fuel : Nat) (s : EState), CursorOnly s (nwSkip w fuel s).1 := by
  intro fuel
  induction fuel with
  | zero => intro s; exact cursorOnly_refl s
  | succ n ih =>
    intro s
    rw [nwSkip]
    split_ifs
    · exact cursorOnly_refl s
    · rcases hr : cursorRight w s with ⟨s2, raised⟩
      have h1 := cursorOnly_cursorRight w s
      rw [hr] at h1
      cases raised
      · dsimp only
        exact cursorOnly_trans h1 (ih s2)
      · dsimp only
        exact h1

theorem cursorOnly_nwScan (w : Char → Nat) :
    ∀ (fuel : Nat) (s : EState), CursorOnly s (nwScan w fuel s).1 := by
  intro fuel
  induction fuel with
  | zero => intro s; exact cursorOnly_refl s
  | succ n ih =>
    intro s
    rw [nwScan]
    split_ifs
    · rcases hr : cursorRight w s with ⟨s2, raised⟩
      have h1 := cursorOnly_cursorRight w s
      rw [hr] at h1
      cases raised
      · dsimp only
        exact cursorOnly_trans h1 (ih s2)
      · dsimp only
        exact h1
    · exact cursorOnly_refl s

theorem cursorOnly_nextWord (w : Char → Nat) (s : EState) :
    CursorOnly s (nextWord w s).1 := by
  unfold nextWord
  rcases hp : nwSkip w (totalChars s + 1) s with ⟨s2, raised⟩
  have h1 := cursorOnly_nwSkip w (totalChars s + 1) s
  rw [hp] at h1
  cases raised
  · dsimp only
    exact cursorOnly_trans h1 (cursorOnly_nwScan w (totalChars s2 + 1) s2)
  · dsimp only
    exact h1

/-- **C8 counterexample.** `next_word` dispatched by `on_keyboard_input` on
the buffer `["a ."]` with the cursor at `(1, 0)` (the last line, only
non-word characters ahead) reports `IndexError` — the bell rings — but the
state is NOT left unchanged: the cursor has already moved from column 1 to
column 3 when `cursor_down` raises.  (The repository's own test suite shows
the same for `jump_to_block_end`: after `assertRaises(IndexError, ...)` it
asserts the cursor HAS moved.) -/
theorem bounds_error_leaves_partial_state :
    (onKeyboardAction (nextWord (fun _ => 1)) false
        ⟨[['a', ' ', '.']], 0, 1, 0, none, [], 0⟩).2 = true ∧
    (onKeyboardAction (nextWord (fun _ => 1)) false
        ⟨[['a', ' ', '.']], 0, 1, 0, none, [], 0⟩).1.cursorX = 3 ∧
    (⟨[['a', ' ', '.']], 0, 1, 0, none, [], 0⟩ : EState).cursorX = 1 := by
  decide

/-- **C8 amended.** Operations dispatched by `on_keyboard_input` that would
move the cursor out of bounds report the `IndexError` (converted to a bell,
never a crash).  Single-step movements — `cursor_up` at line 0, `cursor_down`
at the last line — leave the state entirely unchanged, because `cursor_y`'s
setter raises before assigning.  Multi-step movements such as `next_word`
never touch the buffer contents, version, mark or history either, but may
leave the cursor partially moved (see the counterexample). -/
theorem bounds_error_reporting (w : Char → Nat) (s : EState) :
    (s.cursorY = 0 → onKeyboardAction cursorUp false s = (s, true)) ∧
    (s.lines.length ≤ s.cursorY + 1 →
      onKeyboardAction cursorDown false s = (s, true)) ∧
    ((onKeyboardAction (nextWord w) false s).1.lines = s.lines ∧
     (onKeyboardAction (nextWord w) false s).1.version = s.version ∧
     (onKeyboardAction (nextWord w) false s).1.mark = s.mark ∧
     (onKeyboardAction (nextWord w) false s).1.history = s.history ∧
     (onKeyboardAction (nextWord w) false s).1.historyPosition =
       s.historyPosition) := by
  refine ⟨?_, ?_, ?_⟩
  · intro h0
    have hup : cursorUp s = (s, true) := by
      unfold cursorUp setCursorY
      rw [if_pos (by omega)]
    unfold onKeyboardAction
    rw [hup]
    rw [if_neg (by dsimp only; intro hc; exact hc.1 rfl)]
  · intro h0
    have hdn : cursorDown s = (s, true) := by
      unfold cursorDown setCursorY
      rw [if_pos (by omega)]
    unfold onKeyboardAction
    rw [hdn]
    rw [if_neg (by dsimp only; intro hc; exact hc.1 rfl)]
  · have hco := cursorOnly_nextWord w s
    obtain ⟨a1, a2, a3, a4, a5⟩ := hco
    unfold onKeyboardAction
    rw [if_neg (by intro hc; exact hc.1 a2)]
    exact ⟨a1, a2, a3, a4, a5⟩

/-- Witness for C8 (amended) at a concrete input. -/
theorem bounds_error_reporting_witness :
    ((⟨[[]], 0, 0, 0, none, [], 0⟩ : EState).cursorY = 0 ∧
      (⟨[[]], 0, 0, 0, none, [], 0⟩ : EState).lines.length ≤
        (⟨[[]], 0, 0, 0, none, [], 0⟩ : EState).cursorY + 1) ∧
    onKeyboardAction cursorUp false (⟨[[]], 0, 0, 0, none, [], 0⟩ : EState) =
      (⟨[[]], 0, 0, 0, none, [], 0⟩, true) ∧
    onKeyboardAction cursorDown false (⟨[[]], 0, 0, 0, none, [], 0⟩ : EState) =
      (⟨[[]], 0, 0, 0, none, [], 0⟩, true) ∧
    (onKeyboardAction (nextWord (fun _ => 1)) false
      (⟨[[]], 0, 0, 0, none, [], 0⟩ : EState)).1.history =
      (⟨[[]], 0, 0, 0, none, [], 0⟩ : EState).history :=
  ⟨⟨rfl, by decide⟩,
    (bounds_error_reporting (fun _ => 1) ⟨[[]], 0, 0, 0, none, [], 0⟩).1 rfl,
    (bounds_error_reporting (fun _ => 1) ⟨[[]], 0, 0, 0, none, [], 0⟩).2.1 (by decide),
    (bounds_error_reporting (fun _ => 1) ⟨[[]], 0, 0, 0, none, [], 0⟩).2.2.2.2.2.1⟩

/-! ## Claim C6: the `DiffEditor.diff` cache

`DiffEditor.diff` is a `functools.cached_property`; `diff_changed` deletes
the cached attribute, so the next read recomputes from the buffers' current
contents.  `DiffEditor.on_keyboard_input` calls `diff_changed()` after
delegating a non-mapped key to the active editor; `on_divider_pressed` calls
it right after each hunk copy. -/

/-- The `DiffEditor` state the claim reads: the two editors, which one is
active (`editors[0] == right_editor`), the memoised opcode list (`None` when
the cached attribute has been deleted), and the two view scroll offsets
captured by `on_divider_pressed`. -/
structure DState where
  left : EState
  right : EState
  activeIsRight : Bool
  cachedDiff : Option (List Opcode)
  leftScroll : Nat
  rightScroll : Nat
deriving DecidableEq

/-- The opcode list recomputed from the buffers' current contents. -/
def diffOfD (s : DState) : List Opcode := getOpcodes s.left.lines s.right.lines

/-- Reading `self.diff`: return the cached value, or compute and memoise
it. -/
def readDiff (s : DState) : List Opcode × DState :=
  match s.cachedDiff with
  | some d => (d, s)
  | none => (diffOfD s, {s with cachedDiff := some (diffOfD s)})

/-- `DiffEditor.diff_changed`: `del self.diff` (suppressing the
`AttributeError` when no value is cached). -/
def diffChanged (s : DState) : DState := {s with cachedDiff := none}

/-- The non-mapped-key path of `DiffEditor.on_keyboard_input`:
`self.editors[0].on_keyboard_input(term_code); self.diff_changed()`.  The
active editor's handling of the key is `onKeyboardAction act false` for the
dispatched action `act`. -/
def dOnKeyboardEdit (act : EState → EState × Bool) (s : DState) : DState :=
  let p := onKeyboardAction act false (if s.activeIsRight then s.right else s.left)
  diffChanged (if s.activeIsRight then {s with right := p.1} else {s with left := p.1})

/-- Python slice assignment `lines[start:end] = new` (for `start ≤ end`). -/
def setRange (ls : List (List Char)) (start stop : Nat)
    (new : List (List Char)) : List (List Char) :=
  ls.take start ++ new ++ ls.drop stop

/-- `[other[line_num] for line_num in range(start, stop)]`. -/
def sliceLines (ls : List (List Char)) (start stop : Nat) : List (List Char) :=
  (ls.drop start).take (stop - start)

/-- The loop of `DiffEditor.on_divider_pressed` over the (already read) diff:
for each non-`equal` opcode whose connector row matches the pressed cell,
overwrite the corresponding destination line range with the source side's
current lines (one slice assignment, bumping that buffer's version) and
invalidate the diff cache; the loop keeps going over the captured opcode
list. -/
def dividerLoop (x y lx rx lscroll rscroll : Nat) :
    List Opcode → DState → DState
  | [], s => s
  | op :: rest, s =>
    if op.tag = Tag.equal then dividerLoop x y lx rx lscroll rscroll rest s
    else
      let leftY : ℤ := (op.l1 : ℤ) - (lscroll : ℤ) + 1
      let rightY : ℤ := (op.r1 : ℤ) - (rscroll : ℤ) + 1
      if x = lx ∧ leftY = (y : ℤ) then
        let s1 := {s with left := {s.left with
          lines := setRange s.left.lines op.l1 op.l2
            (sliceLines s.right.lines op.r1 op.r2)
          version := s.left.version + 1}}
        dividerLoop x y lx rx lscroll rscroll rest (diffChanged s1)
      else if x = rx ∧ rightY = (y : ℤ) then
        let s1 := {s with right := {s.right with
          lines := setRange s.right.lines op.r1 op.r2
            (sliceLines s.left.lines op.l1 op.l2)
          version := s.right.version + 1}}
        dividerLoop x y lx rx lscroll rscroll rest (diffChanged s1)
      else dividerLoop x y lx rx lscroll rscroll rest s

/-- `DiffEditor.on_divider_pressed(x, y, left_x, right_x)`: iterate over
`self.diff` (reading it memoises it first) with the scroll offsets captured
before the loop. -/
def onDividerPressed (x y lx rx : Nat) (s : DState) : DState :=
  let p := readDiff s
  dividerLoop x y lx rx s.leftScroll s.rightScroll p.1 p.2

theorem dividerLoop_cache (x y lx rx lscroll rscroll : Nat) :
    ∀ (ops : List Opcode) (s : DState),
    ((dividerLoop x y lx rx lscroll rscroll ops s).left.lines = s.left.lines ∧
     (dividerLoop x y lx rx lscroll rscroll ops s).right.lines = s.right.lines ∧
     (dividerLoop x y lx rx lscroll rscroll ops s).cachedDiff = s.cachedDiff) ∨
    (dividerLoop x y lx rx lscroll rscroll ops s).cachedDiff = none := by
  intro ops
  induction ops with
  | nil => intro s; exact Or.inl ⟨rfl, rfl, rfl⟩
  | cons op rest ih =>
    intro s
    have hstep : ∀ t : DState, t.cachedDiff = none →
        (dividerLoop x y lx rx lscroll rscroll rest t).cachedDiff = none := by
      intro t ht
      rcases ih t with ⟨-, -, h3⟩ | h
      · exact h3.trans ht
      · exact h
    rw [dividerLoop]
    dsimp only
    split_ifs
    · exact ih s
    · exact Or.inr (hstep _ rfl)
    · exact Or.inr (hstep _ rfl)
    · exact ih s

/-- **C6.** Every mutation performed through the `DiffEditor` input path
invalidates the opcode cache, so the next read of `DiffEditor.diff` returns
the opcodes recomputed from both buffers' current contents: (i) after any
keyboard edit delegated to the active editor the cache is empty and the next
read recomputes; (ii) after a divider press that changed either buffer (a
hunk copy) the cache is empty and the next read recomputes.  The cache never
serves opcodes stale with respect to a mutation. -/
theorem diff_cache_never_stale (act : EState → EState × Bool) (s : DState)
    (x y lx rx : Nat) (s2 : DState)
    (hmut : (onDividerPressed x y lx rx s2).left.lines ≠ s2.left.lines ∨
      (onDividerPressed x y lx rx s2).right.lines ≠ s2.right.lines) :
    ((dOnKeyboardEdit act s).cachedDiff = none ∧
      (readDiff (dOnKeyboardEdit act s)).1 = diffOfD (dOnKeyboardEdit act s)) ∧
    ((onDividerPressed x y lx rx s2).cachedDiff = none ∧
      (readDiff (onDividerPressed x y lx rx s2)).1 =
        diffOfD (onDividerPressed x y lx rx s2)) := by
  have hread : ∀ t : DState, t.cachedDiff = none → (readDiff t).1 = diffOfD t := by
    intro t ht
    unfold readDiff
    rw [ht]
  constructor
  · have hc : (dOnKeyboardEdit act s).cachedDiff = none := rfl
    exact ⟨hc, hread _ hc⟩
  · have hc : (onDividerPressed x y lx rx s2).cachedDiff = none := by
      unfold onDividerPressed at hmut ⊢
      have h := dividerLoop_cache x y lx rx s2.leftScroll s2.rightScroll
        (readDiff s2).1 (readDiff s2).2
      have hlines : (readDiff s2).2.left.lines = s2.left.lines ∧
          (readDiff s2).2.right.lines = s2.right.lines := by
        unfold readDiff
        rcases s2.cachedDiff with - | d
        · exact ⟨rfl, rfl⟩
        · exact ⟨rfl, rfl⟩
      rcases h with ⟨h1, h2, h3⟩ | h
      · exfalso
        rcases hmut with hm | hm
        · exact hm (h1.trans hlines.1)
        · exact hm (h2.trans hlines.2)
      · exact h
    exact ⟨hc, hread _ hc⟩

/-- Witness for C6: pressing the divider on the connector row of the single
`replace` hunk of `["a"] / ["b"]` copies the hunk right-to-left and mutates
the left buffer. -/
theorem diff_cache_never_stale_witness :
    ((onDividerPressed 5 1 5 9
        ⟨⟨[['a']], 0, 0, 0, none, [], 0⟩, ⟨[['b']], 0, 0, 0, none, [], 0⟩,
          false, none, 0, 0⟩).left.lines ≠ [['a']] ∨
      (onDividerPressed 5 1 5 9
        ⟨⟨[['a']], 0, 0, 0, none, [], 0⟩, ⟨[['b']], 0, 0, 0, none, [], 0⟩,
          false, none, 0, 0⟩).right.lines ≠ [['b']]) ∧
    (onDividerPressed 5 1 5 9
        ⟨⟨[['a']], 0, 0, 0, none, [], 0⟩, ⟨[['b']], 0, 0, 0, none, [], 0⟩,
          false, none, 0, 0⟩).cachedDiff = none ∧
    (readDiff (onDividerPressed 5 1 5 9
        ⟨⟨[['a']], 0, 0, 0, none, [], 0⟩, ⟨[['b']], 0, 0, 0, none, [], 0⟩,
          false, none, 0, 0⟩)).1 =
      diffOfD (onDividerPressed 5 1 5 9
        ⟨⟨[['a']], 0, 0, 0, none, [], 0⟩, ⟨[['b']], 0, 0, 0, none, [], 0⟩,
          false, none, 0, 0⟩) :=
  ⟨by decide,
    (diff_cache_never_stale (fun t => (t, false))
      ⟨⟨[['a']], 0, 0, 0, none, [], 0⟩, ⟨[['b']], 0, 0, 0, none, [], 0⟩,
        false, none, 0, 0⟩ 5 1 5 9
      ⟨⟨[['a']], 0, 0, 0, none, [], 0⟩, ⟨[['b']], 0, 0, 0, none, [], 0⟩,
        false, none, 0, 0⟩ (by decide)).2⟩

/-! ## Claim C9: sub-line highlighting of `replace` hunks

`highlight_modification(a_lines, b_lines, show_sub_highlights)` joins each
side's lines with `"\n"` and — whenever `show_sub_highlights` is true — runs
`line_diff` (a character-level `SequenceMatcher`) over the two joined texts,
overlaying `highlight_str` on the `delete`/`replace` ranges of the left text
and the `insert`/`replace` ranges of the right text, via `replace_part`.  No
line counts are compared anywhere on this path, and `_left_highlight_lines` /
`_right_highlight_lines` call it for every `replace` opcode in view, passing
the flag through unchanged.

Modelling: the colour blending of `highlight_str` (external `termstr`) is a
per-character mark bit; the uniform whole-hunk blue blend applied afterwards
to every line of both sides carries no per-character information and is not
modelled; the joined text is built from the raw line characters (the source
builds it from the colored appearance truncated to the raw line length, which
is the same character sequence for tab-free lines). -/

abbrev MChar := Char × Bool

def plainM (l : List Char) : List MChar := l.map (fun c => (c, false))

/-- `highlight_str` on a slice: mark every character of it. -/
def markM (l : List MChar) : List MChar := l.map (fun p => (p.1, true))

/-- `replace_part(a_str, start, end, part) = a_str[:start] + part +
a_str[end:]`. -/
def replacePartM (s : List MChar) (start stop : Nat) (part : List MChar) :
    List MChar :=
  s.take start ++ part ++ s.drop stop

/-- `fill3.join("\n", parts)`: separator join. -/
def joinNL : List (List MChar) → List MChar
  | [] => []
  | [l] => l
  | l :: l2 :: ls => l ++ ('\n', false) :: joinNL (l2 :: ls)

/-- One iteration of the opcode loop of `highlight_modification`: mark the
left slice for `delete`/`replace`, the right slice for `insert`/`replace`. -/
def subMarkStep (lr : List MChar × List MChar) (op : Opcode) :
    List MChar × List MChar :=
  let l2 := if op.tag = Tag.delete ∨ op.tag = Tag.replace then
      replacePartM lr.1 op.l1 op.l2 (markM ((lr.1.drop op.l1).take (op.l2 - op.l1)))
    else lr.1
  let r2 := if op.tag = Tag.insert ∨ op.tag = Tag.replace then
      replacePartM lr.2 op.r1 op.r2 (markM ((lr.2.drop op.r1).take (op.r2 - op.r1)))
    else lr.2
  (l2, r2)

/-- `highlight_modification` (modulo colours): the pair of joined, possibly
sub-marked texts from which the source derives the per-line overlays by
splitting on `"\n"` again. -/
def highlightModification (aLines bLines : List (List Char)) (showSub : Bool) :
    List MChar × List MChar :=
  let leftLine := joinNL (aLines.map plainM)
  let rightLine := joinNL (bLines.map plainM)
  if showSub then
    (getOpcodes (leftLine.map Prod.fst) (rightLine.map Prod.fst)).foldl
      subMarkStep (leftLine, rightLine)
  else (leftLine, rightLine)

/-- No character of a freshly joined text is marked. -/
def AllUnmarked (l : List MChar) : Prop := ∀ p ∈ l, p.2 = false

theorem joinNL_plain_unmarked :
    ∀ ls : List (List Char), AllUnmarked (joinNL (ls.map plainM)) := by
  intro ls
  induction ls with
  | nil =>
    intro p hp
    simp [joinNL] at hp
  | cons l ls2 ih =>
    cases ls2 with
    | nil =>
      intro p hp
      simp only [List.map_cons, List.map_nil, joinNL] at hp
      obtain ⟨c, -, hc⟩ := List.mem_map.mp hp
      rw [← hc]
    | cons l2 ls3 =>
      intro p hp
      simp only [List.map_cons, joinNL] at hp
      rcases List.mem_append.mp hp with h | h
      · obtain ⟨c, -, hc⟩ := List.mem_map.mp h
        rw [← hc]
      · rcases List.mem_cons.mp h with h2 | h2
        · rw [h2]
        · exact ih p (by rw [List.map_cons]; exact h2)

/-- **C9 counterexample.** For the hunk `["ab"]` against `["ax", "y"]` — one
line against two, so the line counts differ — the character-level pass IS
run when sub-highlighting is enabled: the result marks exactly the changed
substrings (`'b'` marked, `'a'` not, at sub-line granularity), contradicting
the claim that no sub-line highlighting is attempted for such a hunk. -/
theorem sub_highlight_runs_for_unequal_counts :
    ([['a', 'b']] : List (List Char)).length ≠
      ([['a', 'x'], ['y']] : List (List Char)).length ∧
    highlightModification [['a', 'b']] [['a', 'x'], ['y']] true =
      ([('a', false), ('b', true)],
       [('a', false), ('x', true), ('\n', true), ('y', true)]) := by
  decide

/-- **C9 amended.** Whether the character-level sub-line pass runs is
controlled solely by the `show_sub_highlights` flag, never by comparing the
line counts of a `replace` hunk's two sides: with the flag off no character
is ever sub-marked, and with the flag on the pass runs for every `replace`
hunk — including hunks whose sides differ in line count, as the concrete
hunk `["ab"] / ["ax", "y"]` shows. -/
theorem sub_highlight_iff_flag (aLines bLines : List (List Char)) :
    ((highlightModification aLines bLines false).1.all (fun p => !p.2) = true ∧
     (highlightModification aLines bLines false).2.all (fun p => !p.2) = true) ∧
    highlightModification [['a', 'b']] [['a', 'x'], ['y']] true =
      ([('a', false), ('b', true)],
       [('a', false), ('x', true), ('\n', true), ('y', true)]) := by
  refine ⟨⟨?_, ?_⟩, by decide⟩
  · rw [List.all_eq_true]
    intro p hp
    have hu : p.2 = false := joinNL_plain_unmarked aLines p hp
    simp [hu]
  · rw [List.all_eq_true]
    intro p hp
    have hu : p.2 = false := joinNL_plain_unmarked bLines p hp
    simp [hu]

end DiffEdit
